import Mathlib

/-!
Verification development for the documentation-graph populator
(`scripts/populate-doc-graph.py`).  The Python functions are shallowly
embedded over `List Char` (one entry per Unicode code point, matching
Python string indexing), with Python dicts rendered as insertion-ordered
association lists and Python sets as insertion-ordered duplicate-free
lists.
-/

namespace DocGraph

/-- Shorthand for the string representation used throughout the model. -/
abbrev LC := List Char

/-- ASCII whitespace, the fragment of Python's `str.strip` / `\s` class
relevant to markdown text. -/
def isWs (c : Char) : Bool :=
  c = ' ' || c = '\t' || c = '\n' || c = '\r' || c = '\x0b' || c = '\x0c'

/-- `begins pat l` models Python `l.startswith(pat)`. -/
def begins : LC → LC → Bool
  | [], _ => true
  | _ :: _, [] => false
  | a :: as, b :: bs => a = b && begins as bs

/-- Substring containment, modelling Python's `pat in l`. -/
def hasSub (pat : LC) : LC → Bool
  | [] => begins pat []
  | c :: t => begins pat (c :: t) || hasSub pat t

/-- Python `str.strip()` (both ends). -/
def pyStrip (l : LC) : LC :=
  ((l.dropWhile isWs).reverse.dropWhile isWs).reverse

/-- Split on a single character, modelling Python `str.split(c)` with no
maxsplit (always returns at least one chunk). -/
def splitCh (c : Char) : LC → List LC
  | [] => [[]]
  | a :: t =>
    match splitCh c t with
    | [] => [[]]
    | h :: r => if a = c then [] :: h :: r else (a :: h) :: r

/-- First occurrence split: `breakOn sep l = some (pre, post)` when
`l = pre ++ sep ++ post` at the leftmost occurrence of `sep`. -/
def breakOn (sep : LC) : LC → Option (LC × LC)
  | [] => if begins sep [] then some ([], []) else none
  | c :: t =>
    if begins sep (c :: t) then some ([], (c :: t).drop sep.length)
    else
      match breakOn sep t with
      | some (a, b) => some (c :: a, b)
      | none => none

/-- Python `content.split(sep, 2)`: at most three chunks. -/
def pySplit2 (sep : LC) (s : LC) : List LC :=
  match breakOn sep s with
  | none => [s]
  | some (a, b) =>
    match breakOn sep b with
    | none => [a, b]
    | some (c, d) => [a, c, d]

/-- Python `line.split(sep1c, 1)` for a single-character separator,
returning the two sides (meaningful when the separator occurs). -/
def splitColon1 (line : LC) : LC × LC :=
  (line.takeWhile (· ≠ ':'), (line.dropWhile (· ≠ ':')).drop 1)

/-- Dict insertion: overwrite in place when the key is present, append
otherwise (Python dict assignment, insertion order preserved). -/
def dictInsert (m : List (LC × LC)) (k v : LC) : List (LC × LC) :=
  if m.any (fun p => p.1 = k) then
    m.map (fun p => if p.1 = k then (k, v) else p)
  else m ++ [(k, v)]

def dashes : LC := "---".toList

/-- Trimmed key of a colon line (`key.strip()` of `line.split(":", 1)[0]`). -/
def trimKey (line : LC) : LC := pyStrip (splitColon1 line).1

/-- Trimmed value of a colon line (`value.strip()` of `line.split(":", 1)[1]`). -/
def trimVal (line : LC) : LC := pyStrip (splitColon1 line).2

/-- One loop iteration of the frontmatter dict construction
(`populate-doc-graph.py` lines 71-74). -/
def fmStep (m : List (LC × LC)) (line : LC) : List (LC × LC) :=
  if line.any (· = ':') then dictInsert m (trimKey line) (trimVal line) else m

/-- The frontmatter dict built from the middle segment's lines
(`populate-doc-graph.py` lines 70-74). -/
def buildFm (lines : List LC) : List (LC × LC) :=
  lines.foldl fmStep []

/-- `parse_frontmatter` (lines 61-76): returns the metadata mapping and
the remaining body. -/
def parse_frontmatter (content : LC) : List (LC × LC) × LC :=
  if begins dashes content then
    match pySplit2 dashes content with
    | [_, mid, post] => (buildFm (splitCh '\n' (pyStrip mid)), post)
    | _ => ([], content)
  else ([], content)

/-- Colon-bearing lines of a (stripped, newline-split) middle segment. -/
def colonLines (mid : LC) : List LC :=
  (splitCh '\n' (pyStrip mid)).filter (fun l => l.any (· = ':'))

/-- One step of first-occurrence key deduplication. -/
def dedupStep (acc : List LC) (k : LC) : List LC :=
  if k ∈ acc then acc else acc ++ [k]

/-- First-occurrence deduplication of a list of keys. -/
def dedupFirst (ks : List LC) : List LC :=
  ks.foldl dedupStep []

theorem map_fst_update (m : List (LC × LC)) (k v : LC) :
    (m.map (fun p => if p.1 = k then (k, v) else p)).map Prod.fst = m.map Prod.fst := by
  induction m with
  | nil => rfl
  | cons p t ih =>
    simp only [List.map_cons]
    rw [ih]
    by_cases h : p.1 = k
    · simp [h]
    · simp [h]

theorem any_fst_iff (m : List (LC × LC)) (k : LC) :
    m.any (fun p => p.1 = k) = true ↔ k ∈ m.map Prod.fst := by
  simp [List.any_eq_true, List.mem_map]

theorem dictInsert_keys (m : List (LC × LC)) (k v : LC) :
    (dictInsert m k v).map Prod.fst = dedupStep (m.map Prod.fst) k := by
  unfold dictInsert dedupStep
  by_cases h : m.any (fun p => p.1 = k) = true
  · rw [if_pos h, map_fst_update, if_pos ((any_fst_iff m k).mp h)]
  · have h2 : k ∉ m.map Prod.fst := fun hc => h ((any_fst_iff m k).mpr hc)
    rw [if_neg h, if_neg h2]
    simp

theorem dictInsert_mem (m : List (LC × LC)) (k v : LC) :
    ∀ q ∈ dictInsert m k v, q ∈ m ∨ q = (k, v) := by
  intro q hq
  unfold dictInsert at hq
  by_cases h : m.any (fun p => p.1 = k) = true
  · rw [if_pos h] at hq
    rcases List.mem_map.mp hq with ⟨p, hp, he⟩
    by_cases hk : p.1 = k
    · right
      rw [if_pos hk] at he
      exact he.symm
    · left
      rw [if_neg hk] at he
      exact he ▸ hp
  · rw [if_neg h] at hq
    rcases List.mem_append.mp hq with h1 | h1
    · exact Or.inl h1
    · exact Or.inr (List.mem_singleton.mp h1)

theorem dedupStep_nodup (acc : List LC) (k : LC) (h : acc.Nodup) :
    (dedupStep acc k).Nodup := by
  unfold dedupStep
  by_cases hk : k ∈ acc
  · rwa [if_pos hk]
  · rw [if_neg hk]
    simp [List.nodup_append, h, hk]

theorem dedupFold_nodup (ks : List LC) :
    ∀ acc : List LC, acc.Nodup → (ks.foldl dedupStep acc).Nodup := by
  induction ks with
  | nil => intro acc h; exact h
  | cons k t ih =>
    intro acc h
    exact ih (dedupStep acc k) (dedupStep_nodup acc k h)

theorem mem_dedupStep (acc : List LC) (k a : LC) (h : a ∈ acc ∨ a = k) :
    a ∈ dedupStep acc k := by
  unfold dedupStep
  by_cases hk : k ∈ acc
  · rw [if_pos hk]
    rcases h with h | h
    · exact h
    · exact h ▸ hk
  · rw [if_neg hk]
    rcases h with h | h
    · exact List.mem_append_left _ h
    · exact h ▸ List.mem_append_right _ (List.mem_singleton.mpr rfl)

theorem mem_dedupFold (ks : List LC) :
    ∀ acc a, (a ∈ acc ∨ a ∈ ks) → a ∈ ks.foldl dedupStep acc := by
  induction ks with
  | nil =>
    intro acc a h
    rcases h with h | h
    · exact h
    · exact absurd h (List.not_mem_nil a)
  | cons k t ih =>
    intro acc a h
    rcases h with h | h
    · exact ih _ a (Or.inl (mem_dedupStep acc k a (Or.inl h)))
    · rcases List.mem_cons.mp h with h | h
      · exact ih _ a (Or.inl (mem_dedupStep acc k a (Or.inr h)))
      · exact ih _ a (Or.inr h)

theorem fmFold_keys (lines : List LC) :
    ∀ m : List (LC × LC),
      (lines.foldl fmStep m).map Prod.fst =
        ((lines.filter (fun l => l.any (· = ':'))).map trimKey).foldl dedupStep
          (m.map Prod.fst) := by
  induction lines with
  | nil => intro m; rfl
  | cons l t ih =>
    intro m
    rw [List.foldl_cons]
    by_cases h : l.any (· = ':') = true
    · rw [show fmStep m l = dictInsert m (trimKey l) (trimVal l) from if_pos h, ih,
        dictInsert_keys, List.filter_cons, if_pos h, List.map_cons, List.foldl_cons]
    · rw [show fmStep m l = m from if_neg h, ih, List.filter_cons, if_neg h]

theorem fmFold_mem (lines : List LC) :
    ∀ (m : List (LC × LC)) (q : LC × LC), q ∈ lines.foldl fmStep m →
      q ∈ m ∨ ∃ l ∈ lines, l.any (· = ':') = true ∧ q = (trimKey l, trimVal l) := by
  induction lines with
  | nil =>
    intro m q hq
    exact Or.inl hq
  | cons l t ih =>
    intro m q hq
    rw [List.foldl_cons] at hq
    rcases ih (fmStep m l) q hq with h1 | h1
    · unfold fmStep at h1
      by_cases h : l.any (· = ':') = true
      · rw [if_pos h] at h1
        rcases dictInsert_mem _ _ _ q h1 with h2 | h2
        · exact Or.inl h2
        · exact Or.inr ⟨l, List.mem_cons_self l t, h, h2⟩
      · rw [if_neg h] at h1
        exact Or.inl h1
    · rcases h1 with ⟨l', hl', hc, he⟩
      exact Or.inr ⟨l', List.mem_cons_of_mem l hl', hc, he⟩

/-- `parse_frontmatter` on a well-formed three-part block reduces to the
dict built from the middle segment. -/
theorem parse_frontmatter_wf (content pre mid post : LC)
    (hs : begins dashes content = true)
    (hp : pySplit2 dashes content = [pre, mid, post]) :
    parse_frontmatter content = (buildFm (splitCh '\n' (pyStrip mid)), post) := by
  simp [parse_frontmatter, hs, hp]

/-- C6 (amended): for every well-formed three-part frontmatter block, each
colon-containing line of the metadata segment contributes a (trimmed key,
trimmed value) pair; pairs are inserted in order with a later line
overwriting the value of an earlier line having the same trimmed key, so
the mapping holds exactly one entry per distinct trimmed key, every entry
comes from some colon line with both sides trimmed, and lines without a
colon contribute nothing. -/
theorem parse_frontmatter_colon_entries (content pre mid post : LC)
    (hs : begins dashes content = true)
    (hp : pySplit2 dashes content = [pre, mid, post]) :
    (parse_frontmatter content).1.map Prod.fst =
        dedupFirst ((colonLines mid).map trimKey)
    ∧ ((parse_frontmatter content).1.map Prod.fst).Nodup
    ∧ (∀ q ∈ (parse_frontmatter content).1,
        ∃ l ∈ colonLines mid, q = (trimKey l, trimVal l))
    ∧ (∀ l ∈ colonLines mid, trimKey l ∈ (parse_frontmatter content).1.map Prod.fst) := by
  rw [parse_frontmatter_wf content pre mid post hs hp]
  have hkeys : (buildFm (splitCh '\n' (pyStrip mid))).map Prod.fst =
      dedupFirst ((colonLines mid).map trimKey) := by
    unfold buildFm dedupFirst colonLines
    exact fmFold_keys _ []
  refine ⟨hkeys, ?_, ?_, ?_⟩
  · rw [hkeys]
    exact dedupFold_nodup _ [] List.nodup_nil
  · intro q hq
    rcases fmFold_mem _ [] q hq with h | ⟨l, hl, hc, he⟩
    · exact absurd h (List.not_mem_nil q)
    · exact ⟨l, List.mem_filter.mpr ⟨hl, hc⟩, he⟩
  · intro l hl
    rw [hkeys]
    unfold dedupFirst
    exact mem_dedupFold _ [] _ (Or.inr (List.mem_map_of_mem trimKey hl))

def fmWfEx : LC := "---\ntitle: Intro\nplain line\n---\nbody".toList

/-- Witness for `parse_frontmatter_colon_entries` at a concrete block. -/
theorem parse_frontmatter_colon_entries_witness :
    ((parse_frontmatter fmWfEx).1.map Prod.fst).Nodup :=
  (parse_frontmatter_colon_entries fmWfEx [] ("\ntitle: Intro\nplain line\n".toList)
    ("\nbody".toList) (by decide) (by decide)).2.1

/-- C6 counterexample: in a well-formed block whose two colon lines share
the trimmed key, the mapping holds a single entry, so a colon line does
not always yield an entry of its own. -/
def fmDupEx : LC := "---\na: 1\na: 2\n---\nB".toList

def fmDupMid : LC := "\na: 1\na: 2\n".toList

theorem parse_frontmatter_dup_key_counterexample :
    begins dashes fmDupEx = true
    ∧ pySplit2 dashes fmDupEx = [[], fmDupMid, "\nB".toList]
    ∧ (colonLines fmDupMid).length = 2
    ∧ (parse_frontmatter fmDupEx).1 = [("a".toList, "2".toList)]
    ∧ (parse_frontmatter fmDupEx).1.length = 1 := by
  decide

/-- C5: when the text does not begin with the delimiter, frontmatter
extraction returns the empty mapping and the body unchanged. -/
theorem parse_frontmatter_no_delim (content : LC)
    (h : begins dashes content = false) :
    parse_frontmatter content = ([], content) := by
  simp [parse_frontmatter, h]

def noFmEx : LC := "hello\nworld".toList

/-- Witness for `parse_frontmatter_no_delim`. -/
theorem parse_frontmatter_no_delim_witness :
    parse_frontmatter noFmEx = ([], noFmEx) :=
  parse_frontmatter_no_delim noFmEx (by decide)

/-! ## Document classifier (`determine_doc_type`, lines 149-165) -/

/-- Python `str.lower()` restricted to ASCII case folding. -/
def lowerLC (l : LC) : LC := l.map Char.toLower

def ovWord : LC := "overview".toList
def archWord : LC := "architecture".toList
def decWord : LC := "decision".toList
def implWord : LC := "implementation".toList
def opsWord : LC := "operations".toList
def planWord : LC := "plan".toList
def otherWord : LC := "other".toList
def d00 : LC := "00-".toList
def d01 : LC := "01-".toList
def d02 : LC := "02-".toList
def d04 : LC := "04-".toList
def d05 : LC := "05-".toList
def d06 : LC := "06-".toList

/-- `determine_doc_type` (lines 149-165): word checks run against the
lower-cased path, digit-dash checks against the raw path, substring
containment in both cases. -/
def determine_doc_type (path : LC) : LC :=
  if hasSub ovWord (lowerLC path) || hasSub d00 path then ovWord
  else if hasSub archWord (lowerLC path) || hasSub d01 path then archWord
  else if hasSub decWord (lowerLC path) || hasSub d02 path then decWord
  else if hasSub implWord (lowerLC path) || hasSub d04 path then implWord
  else if hasSub opsWord (lowerLC path) || hasSub d05 path then opsWord
  else if hasSub planWord (lowerLC path) || hasSub d06 path then planWord
  else otherWord

/-- Does some `/`-separated segment of the path start with the token?
(The spec's reading of the digit-dash checks.) -/
def segStarts (tok : LC) (path : LC) : Bool :=
  (splitCh '/' path).any (fun s => begins tok s)

/-- Modelled from the claim's words: the classifier with digit-dash
checks that require a path segment to start with the token. -/
def docTypeRulesClaim : List ((LC → Bool) × LC) :=
  [ (fun p => hasSub ovWord (lowerLC p) || segStarts d00 p, ovWord)
  , (fun p => hasSub archWord (lowerLC p) || segStarts d01 p, archWord)
  , (fun p => hasSub decWord (lowerLC p) || segStarts d02 p, decWord)
  , (fun p => hasSub implWord (lowerLC p) || segStarts d04 p, implWord)
  , (fun p => hasSub opsWord (lowerLC p) || segStarts d05 p, opsWord)
  , (fun p => hasSub planWord (lowerLC p) || segStarts d06 p, planWord) ]

def determine_doc_type_claim (path : LC) : LC :=
  match docTypeRulesClaim.find? (fun r => r.1 path) with
  | some r => r.2
  | none => otherWord

/-- The amended rule table: priority-ordered case-insensitive checks with
first match wins, digit-dash checks being plain substring containment. -/
def docTypeRulesAmended : List ((LC → Bool) × LC) :=
  [ (fun p => hasSub ovWord (lowerLC p) || hasSub d00 p, ovWord)
  , (fun p => hasSub archWord (lowerLC p) || hasSub d01 p, archWord)
  , (fun p => hasSub decWord (lowerLC p) || hasSub d02 p, decWord)
  , (fun p => hasSub implWord (lowerLC p) || hasSub d04 p, implWord)
  , (fun p => hasSub opsWord (lowerLC p) || hasSub d05 p, opsWord)
  , (fun p => hasSub planWord (lowerLC p) || hasSub d06 p, planWord) ]

def determine_doc_type_amended (path : LC) : LC :=
  match docTypeRulesAmended.find? (fun r => r.1 path) with
  | some r => r.2
  | none => otherWord

def sevenTags : List LC :=
  [ovWord, archWord, decWord, implWord, opsWord, planWord, otherWord]

def segCexPath : LC := "a00-b.md".toList

/-- C4 counterexample: the code treats `00-` as a substring check, so a
path containing `00-` inside a segment classifies as overview, while the
claim's segment-start reading yields other. -/
theorem determine_doc_type_counterexample :
    determine_doc_type segCexPath = ovWord
    ∧ determine_doc_type_claim segCexPath = otherWord
    ∧ ovWord ≠ otherWord := by
  decide

/-- C4 (amended): the classifier is a total function into the seven tags,
evaluating the case-insensitive checks in priority order with first match
wins and defaulting to other, where the digit-dash checks are substring
containment anywhere in the path. -/
theorem determine_doc_type_total_priority :
    (∀ p : LC, determine_doc_type p ∈ sevenTags)
    ∧ (∀ p : LC, determine_doc_type p = determine_doc_type_amended p) := by
  refine ⟨fun p => ?_, fun p => ?_⟩
  · by_cases h1 : (hasSub ovWord (lowerLC p) || hasSub d00 p) = true <;>
    by_cases h2 : (hasSub archWord (lowerLC p) || hasSub d01 p) = true <;>
    by_cases h3 : (hasSub decWord (lowerLC p) || hasSub d02 p) = true <;>
    by_cases h4 : (hasSub implWord (lowerLC p) || hasSub d04 p) = true <;>
    by_cases h5 : (hasSub opsWord (lowerLC p) || hasSub d05 p) = true <;>
    by_cases h6 : (hasSub planWord (lowerLC p) || hasSub d06 p) = true <;>
    simp [determine_doc_type, sevenTags, h1, h2, h3, h4, h5, h6]
  · by_cases h1 : (hasSub ovWord (lowerLC p) || hasSub d00 p) = true <;>
    by_cases h2 : (hasSub archWord (lowerLC p) || hasSub d01 p) = true <;>
    by_cases h3 : (hasSub decWord (lowerLC p) || hasSub d02 p) = true <;>
    by_cases h4 : (hasSub implWord (lowerLC p) || hasSub d04 p) = true <;>
    by_cases h5 : (hasSub opsWord (lowerLC p) || hasSub d05 p) = true <;>
    by_cases h6 : (hasSub planWord (lowerLC p) || hasSub d06 p) = true <;>
    simp [determine_doc_type, determine_doc_type_amended, docTypeRulesAmended,
      List.find?, h1, h2, h3, h4, h5, h6]

/-! ## Component extraction (`extract_components`, lines 103-126) -/

/-- Python's `\w` restricted to ASCII: letters, digits, underscore. -/
def isWordChar (c : Char) : Bool := c.isAlphanum || c = '_'

/-- Case-insensitive literal match at the head (`re.IGNORECASE`). -/
def ciBegins : LC → LC → Bool
  | [], _ => true
  | _ :: _, [] => false
  | a :: as, b :: bs => a.toLower = b.toLower && ciBegins as bs

/-- Word boundary after a match whose last character is a word character:
end of text or a non-word character next. -/
def boundaryAfter (next : LC) : Bool :=
  match next with
  | [] => true
  | c :: _ => !isWordChar c

/-- Word boundary before a match whose first character is a word
character: start of text or a non-word character before. -/
def boundaryBefore (prev : Option Char) : Bool :=
  match prev with
  | none => true
  | some c => !isWordChar c

/-- Try the alternation at the current position: first alternative that
matches case-insensitively with a word boundary after it wins; the
returned text is the slice actually matched (case preserved), modelling
`match.group(1)`.  All vocabulary alternatives begin and end with word
characters, so `\b` reduces to the neighbour checks. -/
def altMatchAt (alts : List LC) (l : LC) : Option LC :=
  alts.findSome? fun a =>
    if ciBegins a l && boundaryAfter (l.drop a.length) then some (l.take a.length)
    else none

/-- `re.finditer` for one `\b(...)\b` alternation pattern: scan left to
right, emit non-overlapping matches, resume after each match. -/
def compScanAux (alts : List LC) : Nat → Option Char → LC → List LC
  | 0, _, _ => []
  | _ + 1, _, [] => []
  | fuel + 1, prev, c :: t =>
    if boundaryBefore prev then
      match altMatchAt alts (c :: t) with
      | some m => m :: compScanAux alts fuel m.getLast? ((c :: t).drop m.length)
      | none => compScanAux alts fuel (some c) t
    else compScanAux alts fuel (some c) t

def compScan (alts : List LC) (content : LC) : List LC :=
  compScanAux alts (content.length + 1) none content

/-- Python set insertion, modelled as ordered duplicate-free append. -/
def setAdd (s : List LC) (a : LC) : List LC :=
  if a ∈ s then s else s ++ [a]

/-- The fixed component vocabulary (lines 106-117), one alternation list
per pattern, in source order. -/
def componentPatterns : List (List LC) :=
  [ ["TokenScreener".toList, "Screener".toList]
  , ["RiskEngine".toList, "Risk Engine".toList]
  , ["ExitEngine".toList, "Exit Engine".toList]
  , ["TradeExecutor".toList, "Trade Executor".toList, "Executor".toList]
  , ["Keystore".toList, "Key Store".toList]
  , ["WebhookHandler".toList, "Webhook Handler".toList]
  , ["CopyTradeWorker".toList, "Copy Trade Worker".toList]
  , ["ExitCheckWorker".toList, "Exit Check Worker".toList]
  , ["PriceUpdateWorker".toList, "Price Update Worker".toList]
  , ["Jupiter".toList, "Helius".toList, "Birdeye".toList] ]

/-- `extract_components` (lines 103-126): every match contributes
`match.group(1).replace(" ", "")` to a set. -/
def extract_components (content : LC) : List LC :=
  componentPatterns.foldl
    (fun acc alts =>
      (compScan alts content).foldl (fun s m => setAdd s (m.filter (· ≠ ' '))) acc)
    []

theorem foldl_preserve {α : Type} {β : Type} (P : α → Prop) (f : α → β → α)
    (h : ∀ a b, P a → P (f a b)) :
    ∀ (l : List β) (a : α), P a → P (l.foldl f a) := by
  intro l
  induction l with
  | nil => intro a ha; exact ha
  | cons b t ih => intro a ha; exact ih (f a b) (h a b ha)

theorem setAdd_nodup (s : List LC) (a : LC) (h : s.Nodup) : (setAdd s a).Nodup := by
  unfold setAdd
  by_cases ha : a ∈ s
  · rwa [if_pos ha]
  · rw [if_neg ha]
    simp [List.nodup_append, h, ha]

theorem mem_setAdd (s : List LC) (a q : LC) (h : q ∈ setAdd s a) : q ∈ s ∨ q = a := by
  unfold setAdd at h
  by_cases ha : a ∈ s
  · rw [if_pos ha] at h
    exact Or.inl h
  · rw [if_neg ha] at h
    rcases List.mem_append.mp h with h | h
    · exact Or.inl h
    · exact Or.inr (List.mem_singleton.mp h)

/-- C1 (amended): matching is case-insensitive and the canonical token is
the matched occurrence's text with space characters removed, preserving
its letter case; hence occurrences differing only in internal whitespace
but agreeing in case contribute one token, and the returned collection
never holds duplicates or tokens containing a space. -/
theorem extract_components_amended :
    (∀ content : LC, (extract_components content).Nodup)
    ∧ (∀ (content : LC) (t : LC), t ∈ extract_components content → ' ' ∉ t)
    ∧ extract_components ("Trade Executor and TradeExecutor".toList) =
        ["TradeExecutor".toList] := by
  refine ⟨fun content => ?_, fun content t ht => ?_, by decide⟩
  · unfold extract_components
    refine foldl_preserve List.Nodup _ (fun acc alts hacc => ?_) _ _ List.nodup_nil
    exact foldl_preserve List.Nodup _ (fun s m hs => setAdd_nodup _ _ hs) _ _ hacc
  · have key : ∀ t ∈ extract_components content, ' ' ∉ t := by
      unfold extract_components
      refine foldl_preserve (fun s => ∀ t ∈ s, ' ' ∉ t) _
        (fun acc alts hacc => ?_) _ _ (by intro t ht; cases ht)
      refine foldl_preserve (fun s => ∀ t ∈ s, ' ' ∉ t) _
        (fun s m hs => ?_) _ _ hacc
      intro t ht hsp
      rcases mem_setAdd _ _ _ ht with h | h
      · exact hs t h hsp
      · subst h
        have := (List.mem_filter.mp hsp).2
        simp at this
    exact key t ht

def componentsCaseCex : LC := "Trade Executor TRADE EXECUTOR".toList

/-- C1 counterexample: two occurrences of the same component name that
differ only in letter case produce two distinct canonical tokens, so the
claim's case-insensitive canonicalisation fails on the code. -/
theorem extract_components_case_counterexample :
    extract_components componentsCaseCex =
      ["TradeExecutor".toList, "TRADEEXECUTOR".toList]
    ∧ "TradeExecutor".toList ≠ "TRADEEXECUTOR".toList := by
  decide

/-! ## Concept extraction (`extract_concepts`, lines 129-146) -/

def backtickChar : Char := Char.ofNat 96

def stars2 : LC := "**".toList

def slashTok : LC := "/".toList

/-- Spans of single-backtick-delimited text, non-overlapping, left to
right, resuming after each closing delimiter. -/
def backtickSpansAux : Nat → LC → List LC
  | 0, _ => []
  | _ + 1, [] => []
  | fuel + 1, c :: t =>
    if c = backtickChar then
      let span := t.takeWhile (· ≠ backtickChar)
      let rest := t.dropWhile (· ≠ backtickChar)
      if span ≠ [] ∧ rest ≠ [] then span :: backtickSpansAux fuel (rest.drop 1)
      else backtickSpansAux fuel t
    else backtickSpansAux fuel t

def backtickSpans (content : LC) : List LC :=
  backtickSpansAux (content.length + 1) content

/-- Spans of double-asterisk-delimited text (no `*` inside),
non-overlapping, left to right. -/
def boldSpansAux : Nat → LC → List LC
  | 0, _ => []
  | _ + 1, [] => []
  | fuel + 1, c :: t =>
    if begins stars2 (c :: t) then
      let inner := (c :: t).drop 2
      let span := inner.takeWhile (· ≠ '*')
      let rest := inner.dropWhile (· ≠ '*')
      if span ≠ [] ∧ begins stars2 rest then span :: boldSpansAux fuel (rest.drop 2)
      else boldSpansAux fuel t
    else boldSpansAux fuel t

def boldSpans (content : LC) : List LC :=
  boldSpansAux (content.length + 1) content

/-- Backtick pass of `extract_concepts` (lines 135-138). -/
def backtickTerms (content : LC) : List LC :=
  (backtickSpans content).filter
    (fun t => 2 < t.length ∧ t.length < 50 ∧ ¬(begins slashTok t = true))

/-- Bold pass of `extract_concepts` (lines 141-144). -/
def boldTerms (content : LC) : List LC :=
  (boldSpans content).filter (fun t => 2 < t.length ∧ t.length < 50)

/-- `extract_concepts` (lines 129-146): both passes accumulated into a
set, then the first 20 elements kept. -/
def extract_concepts (content : LC) : List LC :=
  ((backtickTerms content ++ boldTerms content).foldl setAdd []).take 20

theorem mem_foldl_setAdd (l : List LC) :
    ∀ (acc : List LC) (t : LC), t ∈ l.foldl setAdd acc → t ∈ acc ∨ t ∈ l := by
  induction l with
  | nil => intro acc t h; exact Or.inl h
  | cons a l ih =>
    intro acc t h
    rcases ih (setAdd acc a) t h with h1 | h1
    · rcases mem_setAdd acc a t h1 with h2 | h2
      · exact Or.inl h2
      · exact Or.inr (h2 ▸ List.mem_cons_self a l)
    · exact Or.inr (List.mem_cons_of_mem a h1)

/-- C8: concept extraction returns at most 20 entries, each a backtick-
or bold-delimited span of length between 3 and 49, backtick spans
starting with a slash excluded. -/
theorem extract_concepts_bounds (content : LC) :
    (extract_concepts content).length ≤ 20
    ∧ ∀ t ∈ extract_concepts content,
        3 ≤ t.length ∧ t.length ≤ 49
        ∧ ((t ∈ backtickSpans content ∧ ¬(begins slashTok t = true))
            ∨ t ∈ boldSpans content) := by
  constructor
  · unfold extract_concepts
    simp [List.length_take]
  · intro t ht
    have h1 : t ∈ (backtickTerms content ++ boldTerms content).foldl setAdd [] :=
      (List.take_sublist 20 _).mem ht
    rcases mem_foldl_setAdd _ [] t h1 with h2 | h2
    · exact absurd h2 (List.not_mem_nil t)
    · rcases List.mem_append.mp h2 with h3 | h3
      · have := List.mem_filter.mp h3
        have hp := of_decide_eq_true this.2
        exact ⟨by omega, by omega, Or.inl ⟨this.1, hp.2.2⟩⟩
      · have := List.mem_filter.mp h3
        have hp := of_decide_eq_true this.2
        exact ⟨by omega, by omega, Or.inr this.1⟩

def conceptsEx : LC := "use `parser` and **Bold Term** here".toList

/-- Witness for `extract_concepts_bounds` at a concrete document body. -/
theorem extract_concepts_bounds_witness :
    3 ≤ ("parser".toList).length ∧ ("parser".toList).length ≤ 49
    ∧ (("parser".toList ∈ backtickSpans conceptsEx
          ∧ ¬(begins slashTok ("parser".toList) = true))
        ∨ "parser".toList ∈ boldSpans conceptsEx) :=
  (extract_concepts_bounds conceptsEx).2 ("parser".toList) (by decide)

/-! ## Entity records (lines 35-58) -/

/-- A parsed markdown document (dataclass `Document`, lines 35-46). -/
structure Document where
  path : LC
  title : LC
  doc_type : LC
  headings : List LC
  content : LC
  frontmatter : List (LC × LC)
  references : List LC
  components : List LC
  concepts : List LC
deriving DecidableEq

/-- An architecture decision record (dataclass `Decision`, lines 49-58). -/
structure Decision where
  id : LC
  title : LC
  status : LC
  path : LC
  context : LC
  decision : LC
  consequences : LC
deriving DecidableEq

/-! ## Decision parsing (`parse_decision`, lines 188-222) -/

/-- Index of the last occurrence of a character. -/
def lastIdxOfCh (ch : Char) : LC → Option Nat
  | [] => none
  | c :: t =>
    match lastIdxOfCh ch t with
    | some k => some (k + 1)
    | none => if c = ch then some 0 else none

/-- `pathlib.PurePath.stem`: the final component without its suffix; a
suffix exists only when the last dot is neither leading nor final. -/
def pyStem (name : LC) : LC :=
  match lastIdxOfCh '.' name with
  | none => name
  | some i => if 0 < i ∧ i < name.length - 1 then name.take i else name

def restOkay (rest : LC) : Bool :=
  match rest.reverse with
  | [] => false
  | c :: rs => if c = '\n' then !rs.isEmpty && !rs.contains '\n' else !rs.contains '\n'

/-- `re.match(r'^(\d+)-(.+)$', filename)`: leading digit run, a dash,
then a non-empty remainder (a single trailing newline tolerated by `$`).
Returns the digit group. -/
def numPre (stem : LC) : Option LC :=
  let d := stem.takeWhile Char.isDigit
  if d = [] then none
  else
    match stem.drop d.length with
    | '-' :: rest => if restOkay rest then some d else none
    | _ => none

def hh : LC := "##".toList

/-- The lazy group of `(.*?)(?=\n##|\Z)` under `re.DOTALL`: everything up
to the first newline immediately followed by two hashes, or the end. -/
def takeUntilNlHH : LC → LC
  | [] => []
  | c :: t => if c = '\n' ∧ begins hh t = true then [] else c :: takeUntilNlHH t

/-- Whole-pattern attempt of `<pat>\s*\n(.*?)(?=\n##|\Z)` at the head of
`l`: the greedy `\s*` backtracks so that the literal `\n` binds to the
last newline inside the whitespace run after the heading. -/
def secMatchAt (pat : LC) (l : LC) : Option LC :=
  if ciBegins pat l then
    let after := l.drop pat.length
    let ws := after.takeWhile isWs
    match lastIdxOfCh '\n' ws with
    | none => none
    | some k => some (takeUntilNlHH (after.drop (k + 1)))
  else none

/-- `re.search`: leftmost position at which the pattern matches. -/
def findSec (pat : LC) : LC → Option LC
  | [] => none
  | c :: t =>
    match secMatchAt pat (c :: t) with
    | some g => some g
    | none => findSec pat t

def ctxPat : LC := "## Context".toList
def decPat : LC := "## Decision".toList
def consPat : LC := "## Consequences".toList
def acceptedWord : LC := "accepted".toList

/-- `match.group(1).strip()[:2000] if match else ""` (lines 219-221). -/
def sectionOf (pat : LC) (content : LC) : LC :=
  match findSec pat content with
  | some g => (pyStrip g).take 2000
  | none => []

def statusPat : LC := "status:".toList

/-- One attempt of `Status:\s*(\w+)` (case-insensitive) at the head. -/
def statusTry (l : LC) : Option LC :=
  if ciBegins statusPat l then
    let w := ((l.drop statusPat.length).dropWhile isWs).takeWhile isWordChar
    if w ≠ [] then some (lowerLC w) else none
  else none

def statusScan : LC → Option LC
  | [] => none
  | c :: t =>
    match statusTry (c :: t) with
    | some r => some r
    | none => statusScan t

/-- Skip past the current line (for the `re.MULTILINE` `^` anchor). -/
def dropLine (l : LC) : LC := (l.dropWhile (· ≠ '\n')).drop 1

def lastNonNl : LC → Option Nat
  | [] => none
  | c :: t =>
    match lastNonNl t with
    | some k => some (k + 1)
    | none => if c ≠ '\n' then some 0 else none

/-- The `\s+(.+)$` part of the heading patterns, applied after the
hashes: greedy whitespace with backtracking, then a non-empty group of
non-newline characters up to the line end.  Returns the group and the
remaining text after it. -/
def afterHashesMatch (rest : LC) : Option (LC × LC) :=
  let ws := rest.takeWhile isWs
  if ws = [] then none
  else
    let tailPart := rest.drop ws.length
    if tailPart ≠ [] then
      some (tailPart.takeWhile (· ≠ '\n'), tailPart.dropWhile (· ≠ '\n'))
    else
      match lastNonNl (ws.drop 1) with
      | none => none
      | some k =>
        some ((ws.drop (k + 1)).takeWhile (· ≠ '\n'),
          (ws.drop (k + 1)).dropWhile (· ≠ '\n'))

/-- `re.search(r'^#\s+(.+)$', content, re.MULTILINE)`: first H1 group. -/
def firstH1Aux : Nat → LC → Option LC
  | 0, _ => none
  | _ + 1, [] => none
  | fuel + 1, c :: t =>
    match (if c = '#' then afterHashesMatch t else none) with
    | some g => some g.1
    | none => firstH1Aux fuel (dropLine (c :: t))

def firstH1 (content : LC) : Option LC :=
  firstH1Aux (content.length + 1) content

/-- `parse_decision` (lines 188-222) after the file has been read:
`fileName` is the final path component, `rel` the path relative to the
corpus root. -/
def parse_decision (fileName rel content : LC) : Option Decision :=
  match numPre (pyStem fileName) with
  | none => none
  | some d =>
    some
      { id := d
      , title := (match firstH1 content with
                  | some g => g
                  | none => pyStem fileName)
      , status := (match statusScan content with
                   | some s => s
                   | none => acceptedWord)
      , path := rel
      , context := sectionOf ctxPat content
      , decision := sectionOf decPat content
      , consequences := sectionOf consPat content }

theorem findSec_none_iff (pat : LC) (hp : pat ≠ []) :
    ∀ l : LC, findSec pat l = none ↔ ∀ i, secMatchAt pat (l.drop i) = none := by
  have hnil : secMatchAt pat [] = none := by
    unfold secMatchAt
    rcases pat with _ | ⟨c, t⟩
    · exact absurd rfl hp
    · simp [ciBegins]
  intro l
  induction l with
  | nil =>
    refine ⟨fun _ i => ?_, fun _ => rfl⟩
    rw [List.drop_nil]
    exact hnil
  | cons c t ih =>
    constructor
    · intro h i
      cases h0 : secMatchAt pat (c :: t) with
      | some g =>
        simp only [findSec, h0] at h
        exact absurd h (by simp)
      | none =>
        simp only [findSec, h0] at h
        cases i with
        | zero => rw [List.drop_zero]; exact h0
        | succ j =>
          rw [List.drop_succ_cons]
          exact (ih.mp h) j
    · intro h
      have h0 := h 0
      rw [List.drop_zero] at h0
      simp only [findSec, h0]
      exact ih.mpr (fun j => by
        have hj := h (j + 1)
        rwa [List.drop_succ_cons] at hj)

theorem findSec_some (pat : LC) :
    ∀ (l : LC) (g : LC), findSec pat l = some g →
      ∃ i, secMatchAt pat (l.drop i) = some g
        ∧ ∀ j < i, secMatchAt pat (l.drop j) = none := by
  intro l
  induction l with
  | nil => intro g h; cases h
  | cons c t ih =>
    intro g h
    cases h0 : secMatchAt pat (c :: t) with
    | some g' =>
      simp only [findSec, h0] at h
      injection h with hg
      refine ⟨0, ?_, fun j hj => absurd hj (Nat.not_lt_zero j)⟩
      rw [List.drop_zero, h0, hg]
    | none =>
      simp only [findSec, h0] at h
      rcases ih g h with ⟨i, hi, hlt⟩
      refine ⟨i + 1, ?_, fun j hj => ?_⟩
      · rw [List.drop_succ_cons]; exact hi
      · cases j with
        | zero => rw [List.drop_zero]; exact h0
        | succ j' =>
          rw [List.drop_succ_cons]
          exact hlt j' (Nat.lt_of_succ_lt_succ hj)

/-- C3 (amended): each section field equals the text following the first
case-insensitive occurrence of the section pattern — two hashes, a space
and the section name, completed by optional whitespace ending in a
newline, the occurrence being found anywhere rather than only at line
starts — up to but not including the next newline immediately followed by
two hashes (so headings of level two or deeper both stop the section) or
the end of the document, trimmed then truncated to at most 2000
characters; and equals the empty string when no such occurrence exists. -/
theorem parse_decision_sections_amended :
    (∀ (pat : LC), pat ≠ [] → ∀ content : LC,
      ((∀ i, secMatchAt pat (content.drop i) = none) → sectionOf pat content = [])
      ∧ (∀ g, findSec pat content = some g →
          sectionOf pat content = (pyStrip g).take 2000
          ∧ ∃ i, secMatchAt pat (content.drop i) = some g
              ∧ ∀ j < i, secMatchAt pat (content.drop j) = none)
      ∧ (sectionOf pat content).length ≤ 2000)
    ∧ (∀ fileName rel content d, parse_decision fileName rel content = some d →
        d.context = sectionOf ctxPat content
        ∧ d.decision = sectionOf decPat content
        ∧ d.consequences = sectionOf consPat content) := by
  constructor
  · intro pat hp content
    refine ⟨fun h => ?_, fun g hg => ?_, ?_⟩
    · unfold sectionOf
      rw [(findSec_none_iff pat hp content).mpr h]
    · constructor
      · unfold sectionOf
        rw [hg]
      · exact findSec_some pat content g hg
    · unfold sectionOf
      cases h : findSec pat content with
      | some g => simp [List.length_take]
      | none => simp
  · intro fileName rel content d h
    unfold parse_decision at h
    cases hn : numPre (pyStem fileName) with
    | none => rw [hn] at h; cases h
    | some dd =>
      rw [hn] at h
      cases h
      exact ⟨rfl, rfl, rfl⟩

def secCex : LC := "# T\n## Context\nA\n### Sub\nB".toList

def secCexName : LC := "005-x.md".toList

def secCexRel : LC := "02-decisions/005-x.md".toList

def l2sp : LC := "## ".toList

/-- A markdown level-2 heading line in the claim's sense: exactly two
hashes then a space. -/
def isL2Heading (line : LC) : Bool := begins l2sp line

/-- Modelled from the claim's words: the text following a level-2 heading
line named exactly `name` (case-insensitive), up to the next level-2
heading line or the end of the document, trimmed and truncated to 2000
characters; empty when the heading is absent. -/
def sectionClaim (name : LC) (content : LC) : LC :=
  let lines := splitCh '\n' content
  match lines.findIdx? (fun line =>
      isL2Heading line ∧ lowerLC (pyStrip (line.drop 3)) = lowerLC name) with
  | none => []
  | some idx =>
    (pyStrip (List.intercalate ['\n']
      ((lines.drop (idx + 1)).takeWhile (fun l => ¬(isL2Heading l = true))))).take 2000

def ctxName : LC := "Context".toList

/-- C3 counterexample: a level-3 heading inside the Context section stops
the code's extraction (the lookahead `\n##` also matches `\n###`), while
the claim's level-2-only reading keeps reading to the end. -/
theorem parse_decision_sections_counterexample :
    parse_decision secCexName secCexRel secCex =
      some ⟨"005".toList, "T".toList, acceptedWord, secCexRel, "A".toList, [], []⟩
    ∧ sectionClaim ctxName secCex = "A\n### Sub\nB".toList
    ∧ "A".toList ≠ "A\n### Sub\nB".toList := by
  decide

/-- Witness for `parse_decision_sections_amended` at the concrete ADR. -/
theorem parse_decision_sections_amended_witness :
    sectionOf ctxPat secCex = (pyStrip ("A".toList)).take 2000
    ∧ (sectionOf decPat secCex).length ≤ 2000 :=
  ⟨((parse_decision_sections_amended.1 ctxPat (by decide) secCex).2.1
      ("A".toList) (by decide)).1,
    (parse_decision_sections_amended.1 decPat (by decide) secCex).2.2⟩

/-! ## Title, headings and references (lines 79-100) and `parse_document`
(lines 168-185) -/

def lastComp (p : LC) : LC := (p.reverse.takeWhile (· ≠ '/')).reverse

/-- Python `str.title()`: a letter is uppercased when the previous
character is not a letter, lowercased otherwise (ASCII). -/
def titleCaseAux : Bool → LC → LC
  | _, [] => []
  | prev, c :: t =>
    if c.isAlpha then (if prev then c.toLower else c.toUpper) :: titleCaseAux true t
    else c :: titleCaseAux false t

def pyTitleCase (l : LC) : LC := titleCaseAux false l

def hyphenToSpace (l : LC) : LC := l.map (fun c => if c = '-' then ' ' else c)

/-- `extract_title` (lines 79-84): first H1 group stripped, else the
filename stem with hyphens as spaces, title-cased. -/
def extract_title (content : LC) (path : LC) : LC :=
  match firstH1 content with
  | some g => pyStrip g
  | none => pyTitleCase (hyphenToSpace (pyStem (lastComp path)))

/-- One attempt of `^#{1,3}\s+(.+)$` at a line start: one to three
hashes (a fourth hash makes every alternative fail), then the shared
whitespace-and-group part. -/
def hashesMatch (l : LC) : Option (LC × LC) :=
  let hs := l.takeWhile (· = '#')
  if 1 ≤ hs.length ∧ hs.length ≤ 3 then afterHashesMatch (l.drop hs.length)
  else none

def headingsAux : Nat → LC → List LC
  | 0, _ => []
  | _ + 1, [] => []
  | fuel + 1, c :: t =>
    match hashesMatch (c :: t) with
    | some gr => gr.1 :: headingsAux fuel gr.2
    | none => headingsAux fuel (dropLine (c :: t))

/-- `extract_headings` (lines 87-89): `re.findall` of the heading
pattern, groups in document order, resuming after each match. -/
def extract_headings (content : LC) : List LC :=
  headingsAux (content.length + 1) content

def httpTok : LC := "http".toList

def mdRev : LC := "dm.".toList

def endsWithMd (l : LC) : Bool := begins mdRev l.reverse

/-- The `\(([^)]+\.md)\)` part of the link pattern: everything up to the
first closing parenthesis, which must be non-empty, end in `.md` and be
followed by the closing parenthesis. -/
def parenPart (r : LC) : Option (LC × LC) :=
  match r with
  | '(' :: r2 =>
    let run := r2.takeWhile (· ≠ ')')
    let rest := r2.dropWhile (· ≠ ')')
    if 3 < run.length ∧ endsWithMd run = true ∧ rest ≠ [] then some (run, rest.drop 1)
    else none
  | _ => none

/-- Scan for the closing bracket of `\[.+?\]`: the lazy label is at
least one character, never crosses a newline, and extends over a
bracket whose parenthesis part fails. -/
def seekRb : Bool → LC → Option (LC × LC)
  | _, [] => none
  | seen, c :: t =>
    if c = '\n' then none
    else if c = ']' ∧ seen then
      match parenPart t with
      | some rr => some rr
      | none => seekRb true t
    else seekRb true t

def linkAt : LC → Option (LC × LC)
  | '[' :: t => seekRb false t
  | _ => none

def refScanAux : Nat → LC → List LC
  | 0, _ => []
  | _ + 1, [] => []
  | fuel + 1, c :: t =>
    match linkAt (c :: t) with
    | some rr =>
      if begins httpTok rr.1 then refScanAux fuel rr.2
      else rr.1 :: refScanAux fuel rr.2
    | none => refScanAux fuel t

/-- `extract_references` (lines 92-100); the `base_path` parameter of the
source is unused there and omitted here. -/
def extract_references (content : LC) : List LC :=
  refScanAux (content.length + 1) content

/-- `parse_document` (lines 168-185) after the file has been read:
`rel` is the path relative to the corpus root, `content` the file
text. -/
def parse_document (rel : LC) (content : LC) : Document :=
  let fb := parse_frontmatter content
  { path := rel
  , title := extract_title fb.2 rel
  , doc_type := determine_doc_type rel
  , headings := extract_headings fb.2
  , content := fb.2.take 5000
  , frontmatter := fb.1
  , references := extract_references fb.2
  , components := extract_components fb.2
  , concepts := extract_concepts fb.2 }

/-! ## Corpus scanner (`main`'s scan loop, lines 344-369).  Reading a
file either yields its text or raises; the loop's `try/except` is
modelled by the scan being a total function over either outcome. -/

/-- Outcome of `Path.read_text` for one file. -/
inductive ReadResult where
  | ok (content : LC)
  | fail (msg : LC)
deriving DecidableEq

/-- One discovered markdown file: path relative to the corpus root and
the result of reading it. -/
structure MdFile where
  rel : LC
  readRes : ReadResult
deriving DecidableEq

/-- `str(md_file)`: the absolute path, root joined with the relative
path. -/
def fullPath (root : LC) (f : MdFile) : LC := root ++ '/' :: f.rel

def fileName (f : MdFile) : LC := lastComp f.rel

/-- `md_file.parent.name`: the last directory of the relative path, or
the corpus root's own final component for root-level files. -/
def parentName (root : LC) (f : MdFile) : LC :=
  let pre := (splitCh '/' f.rel).dropLast
  if pre.isEmpty then lastComp root else pre.getLastD []

def readmeUp : LC := "README.MD".toList

def upperLC (l : LC) : LC := l.map Char.toUpper

/-- Root-level README skip (lines 354-355): uppercased name equals
README.MD and the file sits directly in the root. -/
def isRootReadme (f : MdFile) : Bool :=
  decide (upperLC (fileName f) = readmeUp ∧ f.rel.contains '/' = false)

/-- Decision-candidacy check (line 361): parent directory name contains
"decision" (case-insensitively) or the full absolute path contains
"02-". -/
def decisionCandidate (root : LC) (f : MdFile) : Bool :=
  hasSub decWord (lowerLC (parentName root f)) || hasSub d02 (fullPath root f)

structure ScanOut where
  docs : List Document
  decs : List Decision
  warns : List (LC × LC)
deriving DecidableEq

/-- One iteration of the scan loop (lines 351-367): skip root READMEs,
parse the document, additionally parse a decision for candidates, and on
a read failure record a warning naming the file and continue. -/
def scanStep (root : LC) (acc : ScanOut) (f : MdFile) : ScanOut :=
  if isRootReadme f then acc
  else
    match f.readRes with
    | .fail e => { acc with warns := acc.warns ++ [(fullPath root f, e)] }
    | .ok content =>
      let docs2 := acc.docs ++ [parse_document f.rel content]
      if decisionCandidate root f then
        match parse_decision (fileName f) f.rel content with
        | some d => { docs := docs2, decs := acc.decs ++ [d], warns := acc.warns }
        | none => { acc with docs := docs2 }
      else { acc with docs := docs2 }

def scanCorpus (root : LC) (files : List MdFile) : ScanOut :=
  files.foldl (scanStep root) ⟨[], [], []⟩

def docOf (f : MdFile) : Option Document :=
  if isRootReadme f then none
  else
    match f.readRes with
    | .ok c => some (parse_document f.rel c)
    | .fail _ => none

def decOf (root : LC) (f : MdFile) : Option Decision :=
  if isRootReadme f then none
  else
    match f.readRes with
    | .ok c =>
      if decisionCandidate root f then parse_decision (fileName f) f.rel c else none
    | .fail _ => none

def warnOf (root : LC) (f : MdFile) : Option (LC × LC) :=
  if isRootReadme f then none
  else
    match f.readRes with
    | .ok _ => none
    | .fail e => some (fullPath root f, e)

theorem scanFold (root : LC) (files : List MdFile) :
    ∀ acc : ScanOut,
      files.foldl (scanStep root) acc =
        ⟨acc.docs ++ files.filterMap docOf,
         acc.decs ++ files.filterMap (decOf root),
         acc.warns ++ files.filterMap (warnOf root)⟩ := by
  induction files with
  | nil =>
    intro acc
    cases acc
    simp
  | cons f t ih =>
    intro acc
    rw [List.foldl_cons, ih]
    unfold scanStep docOf decOf warnOf
    by_cases hr : isRootReadme f = true
    · simp [hr]
    · cases hread : f.readRes with
      | fail e => simp [hr, hread]
      | ok c =>
        by_cases hc : decisionCandidate root f = true
        · cases hd : parse_decision (fileName f) f.rel c with
          | some d => simp [hr, hread, hc, hd]
          | none => simp [hr, hread, hc, hd]
        · simp [hr, hread, hc]

/-- C7: every non-skipped file whose read fails contributes a warning
naming its full path, while the documents produced are exactly those of
the non-skipped files that read successfully — a bad file is skipped and
never aborts the (total) scan. -/
theorem scan_isolates_failures (root : LC) (files : List MdFile) :
    (∀ f ∈ files, isRootReadme f = false → ∀ e, f.readRes = .fail e →
        (fullPath root f, e) ∈ (scanCorpus root files).warns)
    ∧ (scanCorpus root files).docs = files.filterMap docOf := by
  have hfold := scanFold root files ⟨[], [], []⟩
  unfold scanCorpus
  rw [hfold]
  constructor
  · intro f hf hskip e he
    simp only [List.nil_append]
    refine List.mem_filterMap.mpr ⟨f, hf, ?_⟩
    unfold warnOf
    rw [hskip, he]
    simp
  · simp

def scanRootEx : LC := "/srv/docs".toList

def goodFileEx : MdFile :=
  ⟨"intro.md".toList, ReadResult.ok ("# Hello\nBody".toList)⟩

def badFileEx : MdFile :=
  ⟨"broken.md".toList, ReadResult.fail ("decode error".toList)⟩

/-- Witness for `scan_isolates_failures`: a two-file corpus with one
failing file yields its warning. -/
theorem scan_isolates_failures_witness :
    (fullPath scanRootEx badFileEx, "decode error".toList)
      ∈ (scanCorpus scanRootEx [goodFileEx, badFileEx]).warns :=
  (scan_isolates_failures scanRootEx [goodFileEx, badFileEx]).1 badFileEx
    (by decide) (by decide) ("decode error".toList) (by decide)

theorem begins_append (pat l l2 : LC) (h : begins pat l = true) :
    begins pat (l ++ l2) = true := by
  induction pat generalizing l with
  | nil => rfl
  | cons a as ih =>
    cases l with
    | nil => cases h
    | cons b bs =>
      simp only [begins, Bool.and_eq_true] at h
      simp only [List.cons_append, begins, Bool.and_eq_true]
      exact ⟨h.1, ih bs (h.2)⟩

theorem hasSub_append_right (pat l l2 : LC) (h : hasSub pat l = true) :
    hasSub pat (l ++ l2) = true := by
  induction l with
  | nil =>
    have hp : pat = [] := by
      cases pat with
      | nil => rfl
      | cons a as => simp [hasSub, begins] at h
    subst hp
    cases l2 with
    | nil => simp [hasSub, begins]
    | cons c t => simp [hasSub, begins]
  | cons c t ih =>
    simp only [hasSub, Bool.or_eq_true] at h
    simp only [List.cons_append, hasSub, Bool.or_eq_true]
    rcases h with h1 | h1
    · exact Or.inl (begins_append pat (c :: t) l2 h1)
    · exact Or.inr (ih h1)

/-- C10: the decision-candidacy check tests the substring `02-` against
the full absolute path, so when the corpus root itself contains `02-`
every scanned file is a decision candidate, and the scan attempts the
numeric-prefix decision parse on every successfully read, non-skipped
file. -/
theorem abs_root_decision_candidate (root : LC) (files : List MdFile)
    (h : hasSub d02 root = true) :
    (∀ f ∈ files, decisionCandidate root f = true)
    ∧ (scanCorpus root files).decs =
        files.filterMap (fun f =>
          if isRootReadme f then none
          else
            match f.readRes with
            | .ok c => parse_decision (fileName f) f.rel c
            | .fail _ => none) := by
  have hc : ∀ f : MdFile, decisionCandidate root f = true := by
    intro f
    unfold decisionCandidate fullPath
    rw [hasSub_append_right d02 root ('/' :: f.rel) h]
    simp
  constructor
  · intro f _
    exact hc f
  · have hfold := scanFold root files ⟨[], [], []⟩
    unfold scanCorpus
    rw [hfold]
    simp only [List.nil_append]
    apply List.filterMap_congr
    intro f _
    unfold decOf
    by_cases hr : isRootReadme f = true
    · simp [hr]
    · cases hread : f.readRes with
      | ok c => simp [hr, hread, hc f]
      | fail e => simp [hr, hread]

def root02Ex : LC := "/home/02-proj/docs".toList

/-- Witness for `abs_root_decision_candidate`: a root containing `02-`
makes an ordinary file a decision candidate. -/
theorem abs_root_decision_candidate_witness :
    decisionCandidate root02Ex goodFileEx = true :=
  (abs_root_decision_candidate root02Ex [goodFileEx] (by decide)).1 goodFileEx
    (by decide)

/-! ## Graph writer (`create_graph`, lines 231-326).  The store is a
labelled property graph; each `run_query` call becomes one state
transformer with Cypher semantics: `MATCH` finds all nodes carrying at
least the pattern's labels with the listed properties equal, node
`MERGE` binds all matches or creates one node, relationship `MERGE`
creates the edge only when absent.  The final summary query is read-only
and has no state effect. -/

inductive PropVal where
  | s (v : LC)
  | ls (v : List LC)
deriving DecidableEq

structure Node where
  nid : Nat
  labels : List LC
  props : List (LC × PropVal)
deriving DecidableEq

structure Edge where
  src : Nat
  dst : Nat
  typ : LC
deriving DecidableEq

structure GState where
  nodes : List Node
  edges : List Edge
  nextId : Nat
deriving DecidableEq

def getProp (props : List (LC × PropVal)) (k : LC) : Option PropVal :=
  match props.find? (fun p => p.1 = k) with
  | some p => some p.2
  | none => none

/-- A node satisfies a Cypher pattern when it carries every pattern
label and every listed property with the given value. -/
def nodeMatches (labels : List LC) (props : List (LC × PropVal)) (n : Node) : Bool :=
  labels.all (fun l => l ∈ n.labels) && props.all (fun p => getProp n.props p.1 = some p.2)

def docLabel : LC := "Document".toList
def compLabel : LC := "Component".toList
def conceptLabel : LC := "Concept".toList
def decisionLabel : LC := "Decision".toList
def describesTyp : LC := "DESCRIBES".toList
def mentionsTyp : LC := "MENTIONS".toList
def referencesTyp : LC := "REFERENCES".toList
def nameKey : LC := "name".toList
def pathKey : LC := "path".toList
def titleKey : LC := "title".toList
def typeKey : LC := "type".toList
def headingsKey : LC := "headings".toList
def contentKey : LC := "content".toList
def idKey : LC := "id".toList
def statusKey : LC := "status".toList
def contextKey : LC := "context".toList
def decisionKey : LC := "decision".toList
def consequencesKey : LC := "consequences".toList

/-- `MATCH (n:project) DETACH DELETE n` (lines 238-241): remove every
node carrying the project label together with its incident edges. -/
def resetProject (project : LC) (s : GState) : GState :=
  let deadIds := (s.nodes.filter (fun n => project ∈ n.labels)).map Node.nid
  { nodes := s.nodes.filter (fun n => ¬project ∈ n.labels)
  , edges := s.edges.filter (fun e => ¬e.src ∈ deadIds ∧ ¬e.dst ∈ deadIds)
  , nextId := s.nextId }

def createNode (labels : List LC) (props : List (LC × PropVal)) (s : GState) : GState :=
  { nodes := s.nodes ++ [⟨s.nextId, labels, props⟩]
  , edges := s.edges
  , nextId := s.nextId + 1 }

/-- `MERGE (x)-[:t]->(y)` for bound endpoints. -/
def addEdgeIfAbsent (a b : Nat) (t : LC) (s : GState) : GState :=
  if s.edges.any (fun e => e.src = a ∧ e.dst = b ∧ e.typ = t) then s
  else { s with edges := s.edges ++ [⟨a, b, t⟩] }

/-- Properties written on a Document node (lines 247-259), with the
write-time re-truncation of the content to 2000 characters. -/
def docProps (d : Document) : List (LC × PropVal) :=
  [ (pathKey, PropVal.s d.path)
  , (titleKey, PropVal.s d.title)
  , (typeKey, PropVal.s d.doc_type)
  , (headingsKey, PropVal.ls d.headings)
  , (contentKey, PropVal.s (d.content.take 2000)) ]

/-- `CREATE (d:project:Document {...})` (lines 246-260). -/
def createDocNode (project : LC) (d : Document) (s : GState) : GState :=
  createNode [project, docLabel] (docProps d) s

/-- The `WITH c MATCH (d:project:Document {path}) MERGE (d)-[rel]->(c)`
tail of the component/concept queries, for the bound row nodes. -/
def linkRows (project docPath rel : LC) (bound : List Node) (st : GState) : GState :=
  let ds := st.nodes.filter (nodeMatches [project, docLabel] [(pathKey, PropVal.s docPath)])
  bound.foldl (fun a c => ds.foldl (fun b d => addEdgeIfAbsent d.nid c.nid rel b) a) st

/-- The component/concept queries (lines 264-269 and 273-278): merge the
named node under the project label, then merge the relationship from the
document node. -/
def mergeNodeLink (project kind rel nm docPath : LC) (s : GState) : GState :=
  match s.nodes.filter (nodeMatches [project, kind] [(nameKey, PropVal.s nm)]) with
  | [] =>
    linkRows project docPath rel
      [⟨s.nextId, [project, kind], [(nameKey, PropVal.s nm)]⟩]
      (createNode [project, kind] [(nameKey, PropVal.s nm)] s)
  | cs => linkRows project docPath rel cs s

/-- Properties written on a Decision node (lines 288-296). -/
def decProps (d : Decision) : List (LC × PropVal) :=
  [ (idKey, PropVal.s d.id)
  , (titleKey, PropVal.s d.title)
  , (statusKey, PropVal.s d.status)
  , (pathKey, PropVal.s d.path)
  , (contextKey, PropVal.s d.context)
  , (decisionKey, PropVal.s d.decision)
  , (consequencesKey, PropVal.s d.consequences) ]

/-- `CREATE (d:project:Decision {...})` (lines 287-305). -/
def createDecisionNode (project : LC) (d : Decision) (s : GState) : GState :=
  createNode [project, decisionLabel] (decProps d) s

/-- The reference query (lines 311-315): match both document nodes by
path and merge the REFERENCES relationship for every pair; with no
match on either side the query is a silent no-op. -/
def mergeRef (project fromPath toPath : LC) (s : GState) : GState :=
  let d1s := s.nodes.filter (nodeMatches [project, docLabel] [(pathKey, PropVal.s fromPath)])
  let d2s := s.nodes.filter (nodeMatches [project, docLabel] [(pathKey, PropVal.s toPath)])
  d1s.foldl (fun a d1 => d2s.foldl (fun b d2 => addEdgeIfAbsent d1.nid d2.nid referencesTyp b) a) s

/-- Per-document body of the first loop (lines 245-282): create the
document node, link components, link the first ten concepts. -/
def docPhase (project : LC) (s : GState) (d : Document) : GState :=
  let s1 := createDocNode project d s
  let s2 := d.components.foldl
    (fun st c => mergeNodeLink project compLabel describesTyp c d.path st) s1
  (d.concepts.take 10).foldl
    (fun st c => mergeNodeLink project conceptLabel mentionsTyp c d.path st) s2

/-- Per-document body of the reference loop (lines 309-315). -/
def refPhase (project : LC) (s : GState) (d : Document) : GState :=
  d.references.foldl (fun st r => mergeRef project d.path r st) s

/-- Everything `create_graph` does after the reset. -/
def buildPhases (project : LC) (docs : List Document) (decisions : List Decision)
    (s : GState) : GState :=
  let s2 := docs.foldl (docPhase project) s
  let s3 := decisions.foldl (fun st d => createDecisionNode project d st) s2
  docs.foldl (refPhase project) s3

/-- `create_graph` (lines 231-326): reset, document upsert with
component/concept linkage, decision upsert, reference linkage. -/
def create_graph (project : LC) (docs : List Document) (decisions : List Decision)
    (s : GState) : GState :=
  buildPhases project docs decisions (resetProject project s)

/-- Well-formed store: every node identifier and every edge endpoint is
below the allocation counter. -/
def wfState (s : GState) : Prop :=
  (∀ n ∈ s.nodes, n.nid < s.nextId) ∧ (∀ e ∈ s.edges, e.src < s.nextId ∧ e.dst < s.nextId)

def projFree (project : LC) (s : GState) : Prop :=
  ∀ n ∈ s.nodes, project ∉ n.labels

theorem nodeMatches_label (L : List LC) (P : List (LC × PropVal)) (n : Node)
    (h : nodeMatches L P n = true) : ∀ l ∈ L, l ∈ n.labels := by
  intro l hl
  unfold nodeMatches at h
  rw [Bool.and_eq_true] at h
  have h1 := h.1
  rw [List.all_eq_true] at h1
  exact of_decide_eq_true (h1 l hl)

theorem nodeMatches_prop (L : List LC) (P : List (LC × PropVal)) (n : Node)
    (h : nodeMatches L P n = true) : ∀ p ∈ P, getProp n.props p.1 = some p.2 := by
  intro p hp
  unfold nodeMatches at h
  rw [Bool.and_eq_true] at h
  have h2 := h.2
  rw [List.all_eq_true] at h2
  exact of_decide_eq_true (h2 p hp)

theorem resetProject_wf (project : LC) (s : GState) (h : wfState s) :
    wfState (resetProject project s) := by
  constructor
  · intro n hn
    exact h.1 n (List.mem_of_mem_filter hn)
  · intro e he
    exact h.2 e (List.mem_of_mem_filter he)

theorem resetProject_projFree (project : LC) (s : GState) :
    projFree project (resetProject project s) := by
  intro n hn
  have := List.of_mem_filter hn
  exact of_decide_eq_true this

theorem resetProject_nextId (project : LC) (s : GState) :
    (resetProject project s).nextId = s.nextId := rfl

theorem addEdge_shape (a b : Nat) (t : LC) (st : GState) :
    ∃ es : List Edge,
      addEdgeIfAbsent a b t st = ⟨st.nodes, st.edges ++ es, st.nextId⟩
      ∧ ∀ e ∈ es, e = ⟨a, b, t⟩ := by
  unfold addEdgeIfAbsent
  by_cases h : st.edges.any (fun e => e.src = a ∧ e.dst = b ∧ e.typ = t) = true
  · refine ⟨[], ?_, by intro e he; cases he⟩
    rw [if_pos h, List.append_nil]
  · refine ⟨[⟨a, b, t⟩], ?_, ?_⟩
    · rw [if_neg h]
    · intro e he
      exact List.mem_singleton.mp he

theorem edgeFold_shape {β : Type} (fa fb : β → Nat) (t : LC) (elems : List β) :
    ∀ st : GState, ∃ es : List Edge,
      elems.foldl (fun s x => addEdgeIfAbsent (fa x) (fb x) t s) st =
        ⟨st.nodes, st.edges ++ es, st.nextId⟩
      ∧ ∀ e ∈ es, e.typ = t ∧ ∃ x ∈ elems, fa x = e.src ∧ fb x = e.dst := by
  induction elems with
  | nil =>
    intro st
    exact ⟨[], by simp, by intro e he; cases he⟩
  | cons x xs ih =>
    intro st
    rcases addEdge_shape (fa x) (fb x) t st with ⟨e1, he1, hprop1⟩
    rcases ih (addEdgeIfAbsent (fa x) (fb x) t st) with ⟨es, hes, hprop⟩
    refine ⟨e1 ++ es, ?_, ?_⟩
    · rw [List.foldl_cons, hes, he1]
      simp
    · intro e he
      rcases List.mem_append.mp he with h | h
      · have := hprop1 e h
        subst this
        exact ⟨rfl, x, List.mem_cons_self x xs, rfl, rfl⟩
      · rcases hprop e h with ⟨ht, y, hy, hfa, hfb⟩
        exact ⟨ht, y, List.mem_cons_of_mem x hy, hfa, hfb⟩

theorem nestedEdgeFold_shape (rel : LC) (bound ds : List Node) :
    ∀ st : GState, ∃ es : List Edge,
      bound.foldl
        (fun a c => ds.foldl (fun b d => addEdgeIfAbsent d.nid c.nid rel b) a) st =
        ⟨st.nodes, st.edges ++ es, st.nextId⟩
      ∧ ∀ e ∈ es, e.typ = rel
          ∧ (∃ d ∈ ds, d.nid = e.src) ∧ (∃ c ∈ bound, c.nid = e.dst) := by
  induction bound with
  | nil =>
    intro st
    exact ⟨[], by simp, by intro e he; cases he⟩
  | cons c cs ih =>
    intro st
    rcases edgeFold_shape Node.nid (fun _ => c.nid) rel ds st with ⟨e1, he1, hprop1⟩
    rcases ih (ds.foldl (fun b d => addEdgeIfAbsent d.nid c.nid rel b) st) with
      ⟨es, hes, hprop⟩
    refine ⟨e1 ++ es, ?_, ?_⟩
    · rw [List.foldl_cons, hes, he1]
      simp
    · intro e he
      rcases List.mem_append.mp he with h | h
      · rcases hprop1 e h with ⟨ht, d, hd, hfa, hfb⟩
        exact ⟨ht, ⟨d, hd, hfa⟩, ⟨c, List.mem_cons_self c cs, hfb⟩⟩
      · rcases hprop e h with ⟨ht, hd, c', hc', hfb⟩
        exact ⟨ht, hd, ⟨c', List.mem_cons_of_mem c hc', hfb⟩⟩

theorem linkRows_shape (project docPath rel : LC) (bound : List Node) (st : GState) :
    ∃ es : List Edge,
      linkRows project docPath rel bound st = ⟨st.nodes, st.edges ++ es, st.nextId⟩
      ∧ ∀ e ∈ es, e.typ = rel
          ∧ (∃ d ∈ st.nodes,
              nodeMatches [project, docLabel] [(pathKey, PropVal.s docPath)] d = true
              ∧ d.nid = e.src)
          ∧ (∃ c ∈ bound, c.nid = e.dst) := by
  unfold linkRows
  rcases nestedEdgeFold_shape rel bound
      (st.nodes.filter (nodeMatches [project, docLabel] [(pathKey, PropVal.s docPath)]))
      st with ⟨es, hes, hprop⟩
  refine ⟨es, hes, ?_⟩
  intro e he
  rcases hprop e he with ⟨ht, ⟨d, hd, hfa⟩, hc⟩
  exact ⟨ht, ⟨d, List.mem_of_mem_filter hd, List.of_mem_filter hd, hfa⟩, hc⟩

theorem nestedEdgeFold_shape2 (rel : LC) (bound ds : List Node) :
    ∀ st : GState, ∃ es : List Edge,
      bound.foldl
        (fun a c => ds.foldl (fun b d => addEdgeIfAbsent c.nid d.nid rel b) a) st =
        ⟨st.nodes, st.edges ++ es, st.nextId⟩
      ∧ ∀ e ∈ es, e.typ = rel
          ∧ (∃ c ∈ bound, c.nid = e.src) ∧ (∃ d ∈ ds, d.nid = e.dst) := by
  induction bound with
  | nil =>
    intro st
    exact ⟨[], by simp, by intro e he; cases he⟩
  | cons c cs ih =>
    intro st
    rcases edgeFold_shape (fun _ => c.nid) Node.nid rel ds st with ⟨e1, he1, hprop1⟩
    rcases ih (ds.foldl (fun b d => addEdgeIfAbsent c.nid d.nid rel b) st) with
      ⟨es, hes, hprop⟩
    refine ⟨e1 ++ es, ?_, ?_⟩
    · rw [List.foldl_cons, hes, he1]
      simp
    · intro e he
      rcases List.mem_append.mp he with h | h
      · rcases hprop1 e h with ⟨ht, d, hd, hfa, hfb⟩
        exact ⟨ht, ⟨c, List.mem_cons_self c cs, hfa⟩, ⟨d, hd, hfb⟩⟩
      · rcases hprop e h with ⟨ht, ⟨c', hc', hfa⟩, hd⟩
        exact ⟨ht, ⟨c', List.mem_cons_of_mem c hc', hfa⟩, hd⟩

theorem mergeRef_shape (project p q : LC) (st : GState) :
    ∃ es : List Edge,
      mergeRef project p q st = ⟨st.nodes, st.edges ++ es, st.nextId⟩
      ∧ ∀ e ∈ es, e.typ = referencesTyp
          ∧ (∃ d ∈ st.nodes,
              nodeMatches [project, docLabel] [(pathKey, PropVal.s p)] d = true
              ∧ d.nid = e.src)
          ∧ (∃ c ∈ st.nodes,
              nodeMatches [project, docLabel] [(pathKey, PropVal.s q)] c = true
              ∧ c.nid = e.dst) := by
  unfold mergeRef
  rcases nestedEdgeFold_shape2 referencesTyp
      (st.nodes.filter (nodeMatches [project, docLabel] [(pathKey, PropVal.s p)]))
      (st.nodes.filter (nodeMatches [project, docLabel] [(pathKey, PropVal.s q)]))
      st with ⟨es, hes, hprop⟩
  refine ⟨es, hes, ?_⟩
  intro e he
  rcases hprop e he with ⟨ht, ⟨d, hd, hfa⟩, ⟨c, hc, hfb⟩⟩
  exact ⟨ht,
    ⟨d, List.mem_of_mem_filter hd, List.of_mem_filter hd, hfa⟩,
    ⟨c, List.mem_of_mem_filter hc, List.of_mem_filter hc, hfb⟩⟩

theorem createNode_shape (L : List LC) (P : List (LC × PropVal)) (st : GState) :
    createNode L P st = ⟨st.nodes ++ [⟨st.nextId, L, P⟩], st.edges, st.nextId + 1⟩ := rfl

theorem selfMatches (project kind nm : LC) (i : Nat) :
    nodeMatches [project, kind] [(nameKey, PropVal.s nm)]
      ⟨i, [project, kind], [(nameKey, PropVal.s nm)]⟩ = true := by
  simp [nodeMatches, getProp, List.find?]

theorem mergeNodeLink_eq_nil (project kind rel nm docPath : LC) (st : GState)
    (hf : st.nodes.filter (nodeMatches [project, kind] [(nameKey, PropVal.s nm)]) = []) :
    mergeNodeLink project kind rel nm docPath st =
      linkRows project docPath rel
        [⟨st.nextId, [project, kind], [(nameKey, PropVal.s nm)]⟩]
        (createNode [project, kind] [(nameKey, PropVal.s nm)] st) := by
  unfold mergeNodeLink
  rw [hf]

theorem mergeNodeLink_eq_cons (project kind rel nm docPath : LC) (st : GState)
    (c0 : Node) (cs0 : List Node)
    (hf : st.nodes.filter (nodeMatches [project, kind] [(nameKey, PropVal.s nm)]) =
      c0 :: cs0) :
    mergeNodeLink project kind rel nm docPath st =
      linkRows project docPath rel (c0 :: cs0) st := by
  unfold mergeNodeLink
  rw [hf]

theorem mergeNodeLink_shape (project kind rel nm docPath : LC) (st : GState) :
    ∃ (ns : List Node) (es : List Edge),
      mergeNodeLink project kind rel nm docPath st =
        ⟨st.nodes ++ ns, st.edges ++ es, st.nextId + ns.length⟩
      ∧ (ns = [] ∨ ns = [⟨st.nextId, [project, kind], [(nameKey, PropVal.s nm)]⟩])
      ∧ ∀ e ∈ es, e.typ = rel
          ∧ (∃ d ∈ st.nodes ++ ns,
              nodeMatches [project, docLabel] [(pathKey, PropVal.s docPath)] d = true
              ∧ d.nid = e.src)
          ∧ (∃ c ∈ st.nodes ++ ns,
              nodeMatches [project, kind] [(nameKey, PropVal.s nm)] c = true
              ∧ c.nid = e.dst) := by
  cases hf : st.nodes.filter (nodeMatches [project, kind] [(nameKey, PropVal.s nm)]) with
  | nil =>
    rcases linkRows_shape project docPath rel
        [⟨st.nextId, [project, kind], [(nameKey, PropVal.s nm)]⟩]
        (createNode [project, kind] [(nameKey, PropVal.s nm)] st) with ⟨es, hes, hprop⟩
    refine ⟨[⟨st.nextId, [project, kind], [(nameKey, PropVal.s nm)]⟩], es, ?_, Or.inr rfl, ?_⟩
    · rw [mergeNodeLink_eq_nil project kind rel nm docPath st hf, hes]
      rfl
    · intro e he
      rcases hprop e he with ⟨ht, ⟨d, hd, hmd, hsd⟩, ⟨c, hc, hcd⟩⟩
      rw [createNode_shape] at hd
      refine ⟨ht, ⟨d, hd, hmd, hsd⟩, ?_⟩
      have hc2 := List.mem_singleton.mp hc
      exact ⟨⟨st.nextId, [project, kind], [(nameKey, PropVal.s nm)]⟩,
        List.mem_append_right _ (List.mem_singleton.mpr rfl),
        selfMatches project kind nm st.nextId, hc2 ▸ hcd⟩
  | cons c0 cs0 =>
    rcases linkRows_shape project docPath rel (c0 :: cs0) st with ⟨es, hes, hprop⟩
    refine ⟨[], es, ?_, Or.inl rfl, ?_⟩
    · rw [mergeNodeLink_eq_cons project kind rel nm docPath st c0 cs0 hf, hes]
      simp
    · intro e he
      rcases hprop e he with ⟨ht, ⟨d, hd, hmd, hsd⟩, ⟨c, hc, hcd⟩⟩
      refine ⟨ht, ⟨d, by simpa using hd, hmd, hsd⟩, ?_⟩
      have hc2 : c ∈ st.nodes.filter (nodeMatches [project, kind] [(nameKey, PropVal.s nm)]) := by
        rw [hf]
        exact hc
      exact ⟨c, by simpa using List.mem_of_mem_filter hc2, List.of_mem_filter hc2, hcd⟩

/-- Invariant of the build portion of `create_graph` relative to the
state it started from: only project-labelled nodes with fresh
identifiers are added, only edges between project-labelled nodes are
added, the allocator only grows, and well-formedness persists. -/
structure BuildInv (project : LC) (base st : GState) : Prop where
  nodesApp : ∃ ns, st.nodes = base.nodes ++ ns
    ∧ ∀ n ∈ ns, project ∈ n.labels ∧ base.nextId ≤ n.nid
  edgesApp : ∃ es, st.edges = base.edges ++ es
    ∧ ∀ e ∈ es, (∃ a ∈ st.nodes, project ∈ a.labels ∧ a.nid = e.src)
      ∧ (∃ b ∈ st.nodes, project ∈ b.labels ∧ b.nid = e.dst)
  next : base.nextId ≤ st.nextId
  wf : wfState st

theorem BuildInv.base_self (project : LC) (base : GState) (h : wfState base) :
    BuildInv project base base :=
  ⟨⟨[], by simp, by intro n hn; cases hn⟩,
   ⟨[], by simp, by intro e he; cases he⟩,
   Nat.le_refl _, h⟩

theorem BuildInv.extend (project : LC) (base st st2 : GState)
    (h : BuildInv project base st)
    (ns : List Node) (es : List Edge)
    (hst : st2 = ⟨st.nodes ++ ns, st.edges ++ es, st.nextId + ns.length⟩)
    (hns : ns = [] ∨ ∃ L P, ns = [⟨st.nextId, L, P⟩] ∧ project ∈ L)
    (hes : ∀ e ∈ es, (∃ a ∈ st.nodes ++ ns, project ∈ a.labels ∧ a.nid = e.src)
        ∧ (∃ b ∈ st.nodes ++ ns, project ∈ b.labels ∧ b.nid = e.dst)) :
    BuildInv project base st2 := by
  have hnsElems : ∀ n ∈ ns, project ∈ n.labels ∧ n.nid = st.nextId := by
    intro n hn
    rcases hns with h0 | ⟨L, P, h0, hL⟩
    · rw [h0] at hn; cases hn
    · rw [h0] at hn
      have := List.mem_singleton.mp hn
      subst this
      exact ⟨hL, rfl⟩
  have hnsLen : ∀ n ∈ ns, n.nid = st.nextId ∧ ns.length = 1 := by
    intro n hn
    rcases hns with h0 | ⟨L, P, h0, _⟩
    · rw [h0] at hn; cases hn
    · rw [h0] at hn
      have := List.mem_singleton.mp hn
      subst this
      exact ⟨rfl, by simp [h0]⟩
  have hnodeBound : ∀ n ∈ st.nodes ++ ns, n.nid < st.nextId + ns.length := by
    intro n hn
    rcases List.mem_append.mp hn with h1 | h1
    · exact Nat.lt_of_lt_of_le (h.wf.1 n h1) (Nat.le_add_right _ _)
    · rcases hnsLen n h1 with ⟨hnid, hone⟩
      omega
  have hwf2 : wfState st2 := by
    subst hst
    constructor
    · intro n hn
      show n.nid < st.nextId + ns.length
      exact hnodeBound n hn
    · intro e he
      show e.src < st.nextId + ns.length ∧ e.dst < st.nextId + ns.length
      rcases List.mem_append.mp he with h1 | h1
      · have := h.wf.2 e h1
        omega
      · rcases hes e h1 with ⟨⟨a, ha, _, hsa⟩, ⟨b, hb, _, hsb⟩⟩
        have h2 := hnodeBound a ha
        have h3 := hnodeBound b hb
        omega
  refine ⟨?_, ?_, ?_, hwf2⟩
  · rcases h.nodesApp with ⟨ns0, h0, hp0⟩
    refine ⟨ns0 ++ ns, ?_, ?_⟩
    · rw [hst]
      simp [h0]
    · intro n hn
      rcases List.mem_append.mp hn with h1 | h1
      · exact hp0 n h1
      · rcases hnsElems n h1 with ⟨hL, hnid⟩
        exact ⟨hL, hnid ▸ h.next⟩
  · rcases h.edgesApp with ⟨es0, h0, hp0⟩
    refine ⟨es0 ++ es, ?_, ?_⟩
    · rw [hst]
      simp [h0]
    · intro e he
      have hnodes : st2.nodes = st.nodes ++ ns := by rw [hst]
      rcases List.mem_append.mp he with h1 | h1
      · rcases hp0 e h1 with ⟨⟨a, ha, hLa, hsa⟩, ⟨b, hb, hLb, hsb⟩⟩
        exact ⟨⟨a, by rw [hnodes]; exact List.mem_append_left _ ha, hLa, hsa⟩,
          ⟨b, by rw [hnodes]; exact List.mem_append_left _ hb, hLb, hsb⟩⟩
      · rcases hes e h1 with ⟨⟨a, ha, hLa, hsa⟩, ⟨b, hb, hLb, hsb⟩⟩
        exact ⟨⟨a, by rw [hnodes]; exact ha, hLa, hsa⟩,
          ⟨b, by rw [hnodes]; exact hb, hLb, hsb⟩⟩
  · rw [hst]
    exact Nat.le_trans h.next (Nat.le_add_right _ _)

theorem inv_createNode (project : LC) (base st : GState) (L : List LC)
    (P : List (LC × PropVal)) (hL : project ∈ L) (h : BuildInv project base st) :
    BuildInv project base (createNode L P st) := by
  apply BuildInv.extend project base st _ h [⟨st.nextId, L, P⟩] []
  · rw [createNode_shape]
    simp
  · exact Or.inr ⟨L, P, rfl, hL⟩
  · intro e he
    cases he

theorem inv_createDocNode (project : LC) (base st : GState) (d : Document)
    (h : BuildInv project base st) : BuildInv project base (createDocNode project d st) :=
  inv_createNode project base st _ _ (List.mem_cons_self _ _) h

theorem inv_createDecisionNode (project : LC) (base st : GState) (d : Decision)
    (h : BuildInv project base st) :
    BuildInv project base (createDecisionNode project d st) :=
  inv_createNode project base st _ _ (List.mem_cons_self _ _) h

theorem inv_mergeNodeLink (project : LC) (base st : GState) (kind rel nm dp : LC)
    (h : BuildInv project base st) :
    BuildInv project base (mergeNodeLink project kind rel nm dp st) := by
  rcases mergeNodeLink_shape project kind rel nm dp st with ⟨ns, es, hst, hns, hes⟩
  apply BuildInv.extend project base st _ h ns es hst
  · rcases hns with h0 | h0
    · exact Or.inl h0
    · exact Or.inr ⟨[project, kind], [(nameKey, PropVal.s nm)], h0, List.mem_cons_self _ _⟩
  · intro e he
    rcases hes e he with ⟨_, ⟨d, hd, hmd, hsd⟩, ⟨c, hc, hmc, hcd⟩⟩
    exact ⟨⟨d, hd, nodeMatches_label _ _ d hmd project (List.mem_cons_self _ _), hsd⟩,
      ⟨c, hc, nodeMatches_label _ _ c hmc project (List.mem_cons_self _ _), hcd⟩⟩

theorem inv_mergeRef (project : LC) (base st : GState) (p q : LC)
    (h : BuildInv project base st) : BuildInv project base (mergeRef project p q st) := by
  rcases mergeRef_shape project p q st with ⟨es, hst, hes⟩
  apply BuildInv.extend project base st _ h [] es
  · rw [hst]
    simp
  · exact Or.inl rfl
  · intro e he
    rcases hes e he with ⟨_, ⟨d, hd, hmd, hsd⟩, ⟨c, hc, hmc, hcd⟩⟩
    exact ⟨⟨d, List.mem_append_left _ hd,
        nodeMatches_label _ _ d hmd project (List.mem_cons_self _ _), hsd⟩,
      ⟨c, List.mem_append_left _ hc,
        nodeMatches_label _ _ c hmc project (List.mem_cons_self _ _), hcd⟩⟩

theorem inv_docPhase (project : LC) (base : GState) (d : Document) :
    ∀ st : GState, BuildInv project base st →
      BuildInv project base (docPhase project st d) := by
  intro st h
  unfold docPhase
  exact foldl_preserve (BuildInv project base) _
    (fun s c hs => inv_mergeNodeLink project base s conceptLabel mentionsTyp c d.path hs) _ _
    (foldl_preserve (BuildInv project base) _
      (fun s c hs => inv_mergeNodeLink project base s compLabel describesTyp c d.path hs) _ _
      (inv_createDocNode project base st d h))

theorem inv_refPhase (project : LC) (base : GState) (d : Document) :
    ∀ st : GState, BuildInv project base st →
      BuildInv project base (refPhase project st d) := by
  intro st h
  unfold refPhase
  exact foldl_preserve (BuildInv project base) _
    (fun s r hs => inv_mergeRef project base s d.path r hs) _ _ h

theorem inv_buildPhases (project : LC) (docs : List Document) (decs : List Decision)
    (base : GState) (hwf : wfState base) :
    BuildInv project base (buildPhases project docs decs base) := by
  unfold buildPhases
  exact foldl_preserve (BuildInv project base) _
    (fun s d hs => inv_refPhase project base d s hs) _ _
    (foldl_preserve (BuildInv project base) _
      (fun s d hs => inv_createDecisionNode project base s d hs) _ _
      (foldl_preserve (BuildInv project base) _
        (fun s d hs => inv_docPhase project base d s hs) _ _
        (BuildInv.base_self project base hwf)))

theorem filter_all_true {α : Type} (q : α → Bool) (l : List α)
    (h : ∀ a ∈ l, q a = true) : l.filter q = l := by
  induction l with
  | nil => rfl
  | cons a t ih =>
    rw [List.filter_cons, if_pos (h a (List.mem_cons_self a t))]
    rw [ih (fun x hx => h x (List.mem_cons_of_mem a hx))]

theorem filter_all_false {α : Type} (q : α → Bool) (l : List α)
    (h : ∀ a ∈ l, q a = false) : l.filter q = [] := by
  induction l with
  | nil => rfl
  | cons a t ih =>
    rw [List.filter_cons, if_neg (by rw [h a (List.mem_cons_self a t)]; simp)]
    exact ih (fun x hx => h x (List.mem_cons_of_mem a hx))

theorem reset_build (project : LC) (docs : List Document) (decs : List Decision)
    (base : GState) (hpf : projFree project base) (hwf : wfState base) :
    resetProject project (buildPhases project docs decs base) =
      ⟨base.nodes, base.edges, (buildPhases project docs decs base).nextId⟩ := by
  have hinv := inv_buildPhases project docs decs base hwf
  rcases hinv.nodesApp with ⟨ns, hn, hns⟩
  rcases hinv.edgesApp with ⟨es, he, hes⟩
  have hprojFilter :
      (buildPhases project docs decs base).nodes.filter (fun n => project ∈ n.labels) = ns := by
    rw [hn, List.filter_append,
      filter_all_false _ base.nodes (fun n hn2 => by
        simp [of_decide_eq_false, hpf n hn2]),
      filter_all_true _ ns (fun n hn2 => by simp [(hns n hn2).1]),
      List.nil_append]
  have hnodes2 :
      (buildPhases project docs decs base).nodes.filter (fun n => ¬project ∈ n.labels) =
        base.nodes := by
    rw [hn, List.filter_append,
      filter_all_true _ base.nodes (fun n hn2 => by simp [hpf n hn2]),
      filter_all_false _ ns (fun n hn2 => by simp [(hns n hn2).1]),
      List.append_nil]
  have hedges2 :
      (buildPhases project docs decs base).edges.filter
          (fun e =>
            ¬e.src ∈ ((buildPhases project docs decs base).nodes.filter
                (fun n => project ∈ n.labels)).map Node.nid
            ∧ ¬e.dst ∈ ((buildPhases project docs decs base).nodes.filter
                (fun n => project ∈ n.labels)).map Node.nid) =
        base.edges := by
    rw [hprojFilter, he, List.filter_append,
      filter_all_true _ base.edges (fun e he2 => by
        have hw := hwf.2 e he2
        have hsrc : ¬e.src ∈ ns.map Node.nid := by
          intro hc
          rcases List.mem_map.mp hc with ⟨n, hn2, hnid⟩
          have := (hns n hn2).2
          omega
        have hdst : ¬e.dst ∈ ns.map Node.nid := by
          intro hc
          rcases List.mem_map.mp hc with ⟨n, hn2, hnid⟩
          have := (hns n hn2).2
          omega
        simp [hsrc, hdst]),
      filter_all_false _ es (fun e he2 => by
        rcases hes e he2 with ⟨⟨a, ha, hLa, hsa⟩, _⟩
        have hsrc : e.src ∈ ns.map Node.nid := by
          refine List.mem_map.mpr ⟨a, ?_, hsa⟩
          rw [← hprojFilter]
          exact List.mem_filter.mpr ⟨ha, by simp [hLa]⟩
        simp [hsrc]),
      List.append_nil]
  unfold resetProject
  rw [hnodes2]
  simp only [hedges2]

/-! Identifier-shift simulation: two builds starting from states that
are equal except for the allocation counter produce graphs equal up to
an injective renaming of the fresh identifiers, hence with the same node
and edge counts. -/

def shiftId (n1 dl i : Nat) : Nat := if i < n1 then i else i + dl

def mapNode (n1 dl : Nat) (n : Node) : Node := ⟨shiftId n1 dl n.nid, n.labels, n.props⟩

def mapEdge (n1 dl : Nat) (e : Edge) : Edge :=
  ⟨shiftId n1 dl e.src, shiftId n1 dl e.dst, e.typ⟩

def mapState (n1 dl : Nat) (s : GState) : GState :=
  ⟨s.nodes.map (mapNode n1 dl), s.edges.map (mapEdge n1 dl), s.nextId + dl⟩

theorem shiftId_inj (n1 dl i j : Nat) (h : shiftId n1 dl i = shiftId n1 dl j) : i = j := by
  unfold shiftId at h
  split at h <;> split at h <;> omega

theorem shiftId_ge (n1 dl i : Nat) (h : n1 ≤ i) : shiftId n1 dl i = i + dl := by
  unfold shiftId
  rw [if_neg (by omega)]

theorem shiftId_lt (n1 dl i : Nat) (h : i < n1) : shiftId n1 dl i = i := by
  unfold shiftId
  rw [if_pos h]

theorem nodeMatches_mapNode (L : List LC) (P : List (LC × PropVal)) (n1 dl : Nat)
    (n : Node) : nodeMatches L P (mapNode n1 dl n) = nodeMatches L P n := rfl

theorem anyCongr {α : Type} (p q : α → Bool) (l : List α) (h : ∀ a ∈ l, p a = q a) :
    l.any p = l.any q := by
  induction l with
  | nil => rfl
  | cons a t ih =>
    simp only [List.any_cons]
    rw [h a (List.mem_cons_self a t), ih (fun x hx => h x (List.mem_cons_of_mem a hx))]

theorem filterCongr {α : Type} (p q : α → Bool) (l : List α) (h : ∀ a ∈ l, p a = q a) :
    l.filter p = l.filter q := by
  induction l with
  | nil => rfl
  | cons a t ih =>
    rw [List.filter_cons, List.filter_cons, h a (List.mem_cons_self a t),
      ih (fun x hx => h x (List.mem_cons_of_mem a hx))]

theorem filter_mapNode (n1 dl : Nat) (q : Node → Bool)
    (hq : ∀ n, q (mapNode n1 dl n) = q n) (l : List Node) :
    (l.map (mapNode n1 dl)).filter q = (l.filter q).map (mapNode n1 dl) := by
  rw [List.filter_map]
  congr 1
  exact filterCongr _ _ l (fun n _ => hq n)

theorem comm_createNode (n1 dl : Nat) (L : List LC) (P : List (LC × PropVal))
    (s : GState) (hn : n1 ≤ s.nextId) :
    createNode L P (mapState n1 dl s) = mapState n1 dl (createNode L P s) := by
  unfold createNode mapState
  congr 1
  · rw [List.map_append]
    congr 1
    simp [mapNode, shiftId_ge n1 dl s.nextId hn]
  · show s.nextId + dl + 1 = s.nextId + 1 + dl
    omega

theorem comm_addEdge (n1 dl a b : Nat) (t : LC) (s : GState) :
    addEdgeIfAbsent (shiftId n1 dl a) (shiftId n1 dl b) t (mapState n1 dl s) =
      mapState n1 dl (addEdgeIfAbsent a b t s) := by
  have hany : (mapState n1 dl s).edges.any
        (fun e => e.src = shiftId n1 dl a ∧ e.dst = shiftId n1 dl b ∧ e.typ = t) =
      s.edges.any (fun e => e.src = a ∧ e.dst = b ∧ e.typ = t) := by
    show (s.edges.map (mapEdge n1 dl)).any _ = _
    rw [List.any_map]
    refine anyCongr _ _ s.edges (fun e _ => ?_)
    show decide ((mapEdge n1 dl e).src = shiftId n1 dl a ∧ _ ∧ _) = _
    apply decide_eq_decide.mpr
    unfold mapEdge
    constructor
    · rintro ⟨h1, h2, h3⟩
      exact ⟨shiftId_inj n1 dl _ _ h1, shiftId_inj n1 dl _ _ h2, h3⟩
    · rintro ⟨h1, h2, h3⟩
      exact ⟨by rw [h1], by rw [h2], h3⟩
  unfold addEdgeIfAbsent
  rw [hany]
  by_cases h : s.edges.any (fun e => e.src = a ∧ e.dst = b ∧ e.typ = t) = true
  · rw [if_pos h, if_pos h]
  · rw [if_neg h, if_neg h]
    unfold mapState
    simp [List.map_append, mapEdge]

theorem mapNode_nid (n1 dl : Nat) (n : Node) :
    (mapNode n1 dl n).nid = shiftId n1 dl n.nid := rfl

theorem comm_linkInner (n1 dl : Nat) (rel : LC) (ds : List Node) (c0 : Nat) :
    ∀ s : GState,
      (ds.map (mapNode n1 dl)).foldl
          (fun b d => addEdgeIfAbsent d.nid (shiftId n1 dl c0) rel b)
          (mapState n1 dl s) =
        mapState n1 dl (ds.foldl (fun b d => addEdgeIfAbsent d.nid c0 rel b) s) := by
  induction ds with
  | nil => intro s; rfl
  | cons d rest ih =>
    intro s
    simp only [List.map_cons, List.foldl_cons, mapNode_nid]
    rw [comm_addEdge n1 dl d.nid c0 rel s]
    exact ih _

theorem comm_linkOuter (n1 dl : Nat) (rel : LC) (ds : List Node) (bound : List Node) :
    ∀ s : GState,
      (bound.map (mapNode n1 dl)).foldl
          (fun a c =>
            (ds.map (mapNode n1 dl)).foldl
              (fun b d => addEdgeIfAbsent d.nid c.nid rel b) a)
          (mapState n1 dl s) =
        mapState n1 dl
          (bound.foldl
            (fun a c => ds.foldl (fun b d => addEdgeIfAbsent d.nid c.nid rel b) a) s) := by
  induction bound with
  | nil => intro s; rfl
  | cons c rest ih =>
    intro s
    simp only [List.map_cons, List.foldl_cons, mapNode_nid]
    rw [comm_linkInner n1 dl rel ds c.nid s]
    exact ih _

theorem comm_linkRows (n1 dl : Nat) (project dp rel : LC) (bound : List Node)
    (s : GState) :
    linkRows project dp rel (bound.map (mapNode n1 dl)) (mapState n1 dl s) =
      mapState n1 dl (linkRows project dp rel bound s) := by
  unfold linkRows
  rw [show (mapState n1 dl s).nodes = s.nodes.map (mapNode n1 dl) from rfl,
    filter_mapNode n1 dl _ (fun n => nodeMatches_mapNode _ _ n1 dl n) s.nodes]
  exact comm_linkOuter n1 dl rel _ bound s

theorem comm_refInner (n1 dl : Nat) (ds : List Node) (c0 : Nat) :
    ∀ s : GState,
      (ds.map (mapNode n1 dl)).foldl
          (fun b d => addEdgeIfAbsent (shiftId n1 dl c0) d.nid referencesTyp b)
          (mapState n1 dl s) =
        mapState n1 dl
          (ds.foldl (fun b d => addEdgeIfAbsent c0 d.nid referencesTyp b) s) := by
  induction ds with
  | nil => intro s; rfl
  | cons d rest ih =>
    intro s
    simp only [List.map_cons, List.foldl_cons, mapNode_nid]
    rw [comm_addEdge n1 dl c0 d.nid referencesTyp s]
    exact ih _

theorem comm_refOuter (n1 dl : Nat) (ds : List Node) (bound : List Node) :
    ∀ s : GState,
      (bound.map (mapNode n1 dl)).foldl
          (fun a c =>
            (ds.map (mapNode n1 dl)).foldl
              (fun b d => addEdgeIfAbsent c.nid d.nid referencesTyp b) a)
          (mapState n1 dl s) =
        mapState n1 dl
          (bound.foldl
            (fun a c =>
              ds.foldl (fun b d => addEdgeIfAbsent c.nid d.nid referencesTyp b) a) s) := by
  induction bound with
  | nil => intro s; rfl
  | cons c rest ih =>
    intro s
    simp only [List.map_cons, List.foldl_cons, mapNode_nid]
    rw [comm_refInner n1 dl ds c.nid s]
    exact ih _

theorem comm_mergeRef (n1 dl : Nat) (project p q : LC) (s : GState) :
    mergeRef project p q (mapState n1 dl s) = mapState n1 dl (mergeRef project p q s) := by
  unfold mergeRef
  rw [show (mapState n1 dl s).nodes = s.nodes.map (mapNode n1 dl) from rfl,
    filter_mapNode n1 dl _ (fun n => nodeMatches_mapNode _ _ n1 dl n) s.nodes,
    filter_mapNode n1 dl _ (fun n => nodeMatches_mapNode _ _ n1 dl n) s.nodes]
  exact comm_refOuter n1 dl _ _ s

theorem comm_mergeNodeLink (n1 dl : Nat) (project kind rel nm dp : LC) (s : GState)
    (hn : n1 ≤ s.nextId) :
    mergeNodeLink project kind rel nm dp (mapState n1 dl s) =
      mapState n1 dl (mergeNodeLink project kind rel nm dp s) := by
  have hfilter : (mapState n1 dl s).nodes.filter
        (nodeMatches [project, kind] [(nameKey, PropVal.s nm)]) =
      (s.nodes.filter (nodeMatches [project, kind] [(nameKey, PropVal.s nm)])).map
        (mapNode n1 dl) :=
    filter_mapNode n1 dl _ (fun n => nodeMatches_mapNode _ _ n1 dl n) s.nodes
  cases hf : s.nodes.filter (nodeMatches [project, kind] [(nameKey, PropVal.s nm)]) with
  | nil =>
    rw [mergeNodeLink_eq_nil project kind rel nm dp (mapState n1 dl s)
        (by rw [hfilter, hf]; rfl),
      mergeNodeLink_eq_nil project kind rel nm dp s hf,
      comm_createNode n1 dl _ _ s hn,
      show [(⟨(mapState n1 dl s).nextId, [project, kind],
          [(nameKey, PropVal.s nm)]⟩ : Node)] =
        [(⟨s.nextId, [project, kind], [(nameKey, PropVal.s nm)]⟩ : Node)].map
          (mapNode n1 dl) from by
        simp [mapNode, mapState, shiftId_ge n1 dl s.nextId hn],
      comm_linkRows n1 dl project dp rel _ _]
  | cons c0 cs0 =>
    rw [mergeNodeLink_eq_cons project kind rel nm dp (mapState n1 dl s)
        (mapNode n1 dl c0) (cs0.map (mapNode n1 dl)) (by rw [hfilter, hf]; rfl),
      mergeNodeLink_eq_cons project kind rel nm dp s c0 cs0 hf,
      show mapNode n1 dl c0 :: cs0.map (mapNode n1 dl) =
        (c0 :: cs0).map (mapNode n1 dl) from rfl,
      comm_linkRows n1 dl project dp rel _ _]

theorem comm_createDocNode (n1 dl : Nat) (project : LC) (d : Document) (s : GState)
    (hn : n1 ≤ s.nextId) :
    createDocNode project d (mapState n1 dl s) =
      mapState n1 dl (createDocNode project d s) :=
  comm_createNode n1 dl _ _ s hn

theorem comm_createDecisionNode (n1 dl : Nat) (project : LC) (d : Decision) (s : GState)
    (hn : n1 ≤ s.nextId) :
    createDecisionNode project d (mapState n1 dl s) =
      mapState n1 dl (createDecisionNode project d s) :=
  comm_createNode n1 dl _ _ s hn

theorem nextId_mergeNodeLink_le (project kind rel nm dp : LC) (s : GState) :
    s.nextId ≤ (mergeNodeLink project kind rel nm dp s).nextId := by
  rcases mergeNodeLink_shape project kind rel nm dp s with ⟨ns, es, hst, _, _⟩
  rw [hst]
  exact Nat.le_add_right _ _

theorem nextId_mergeRef_eq (project p q : LC) (s : GState) :
    (mergeRef project p q s).nextId = s.nextId := by
  rcases mergeRef_shape project p q s with ⟨es, hst, _⟩
  rw [hst]

theorem foldl_nextId_mono {β : Type} (f : GState → β → GState)
    (h : ∀ s b, s.nextId ≤ (f s b).nextId) :
    ∀ (l : List β) (s : GState), s.nextId ≤ (l.foldl f s).nextId := by
  intro l
  induction l with
  | nil => intro s; exact Nat.le_refl _
  | cons b t ih =>
    intro s
    exact Nat.le_trans (h s b) (ih (f s b))

theorem nextId_docPhase_le (project : LC) (s : GState) (d : Document) :
    s.nextId ≤ (docPhase project s d).nextId := by
  unfold docPhase
  have h1 : s.nextId ≤ (createDocNode project d s).nextId := Nat.le_succ _
  have h2 := foldl_nextId_mono _
    (fun s c => nextId_mergeNodeLink_le project compLabel describesTyp c d.path s)
    d.components (createDocNode project d s)
  have h3 := foldl_nextId_mono _
    (fun s c => nextId_mergeNodeLink_le project conceptLabel mentionsTyp c d.path s)
    (d.concepts.take 10)
    (d.components.foldl
      (fun st c => mergeNodeLink project compLabel describesTyp c d.path st)
      (createDocNode project d s))
  exact Nat.le_trans h1 (Nat.le_trans h2 h3)

theorem nextId_refPhase_eq (project : LC) (s : GState) (d : Document) :
    (refPhase project s d).nextId = s.nextId := by
  unfold refPhase
  induction d.references generalizing s with
  | nil => rfl
  | cons r t ih =>
    rw [List.foldl_cons, ih, nextId_mergeRef_eq]

theorem comm_foldl {β : Type} (n1 dl : Nat) (f : GState → β → GState)
    (hcomm : ∀ s b, n1 ≤ s.nextId → f (mapState n1 dl s) b = mapState n1 dl (f s b))
    (hmono : ∀ s b, s.nextId ≤ (f s b).nextId) :
    ∀ (l : List β) (s : GState), n1 ≤ s.nextId →
      l.foldl f (mapState n1 dl s) = mapState n1 dl (l.foldl f s) := by
  intro l
  induction l with
  | nil => intro s _; rfl
  | cons b t ih =>
    intro s hs
    rw [List.foldl_cons, List.foldl_cons, hcomm s b hs]
    exact ih (f s b) (Nat.le_trans hs (hmono s b))

theorem comm_docPhase (n1 dl : Nat) (project : LC) (d : Document) (s : GState)
    (hn : n1 ≤ s.nextId) :
    docPhase project (mapState n1 dl s) d = mapState n1 dl (docPhase project s d) := by
  simp only [docPhase]
  rw [comm_createDocNode n1 dl project d s hn]
  have hn1 : n1 ≤ (createDocNode project d s).nextId :=
    Nat.le_trans hn (Nat.le_succ _)
  rw [comm_foldl n1 dl _
    (fun s c h => comm_mergeNodeLink n1 dl project compLabel describesTyp c d.path s h)
    (fun s c => nextId_mergeNodeLink_le project compLabel describesTyp c d.path s)
    d.components _ hn1]
  exact comm_foldl n1 dl _
    (fun s c h => comm_mergeNodeLink n1 dl project conceptLabel mentionsTyp c d.path s h)
    (fun s c => nextId_mergeNodeLink_le project conceptLabel mentionsTyp c d.path s)
    _ _ (Nat.le_trans hn1 (foldl_nextId_mono _
      (fun s c => nextId_mergeNodeLink_le project compLabel describesTyp c d.path s) _ _))

theorem comm_refPhase (n1 dl : Nat) (project : LC) (d : Document) (s : GState)
    (hn : n1 ≤ s.nextId) :
    refPhase project (mapState n1 dl s) d = mapState n1 dl (refPhase project s d) := by
  unfold refPhase
  exact comm_foldl n1 dl _
    (fun s r _ => comm_mergeRef n1 dl project d.path r s)
    (fun s r => Nat.le_of_eq (nextId_mergeRef_eq project d.path r s).symm)
    d.references s hn

theorem comm_buildPhases (n1 dl : Nat) (project : LC) (docs : List Document)
    (decs : List Decision) (s : GState) (hn : n1 ≤ s.nextId) :
    buildPhases project docs decs (mapState n1 dl s) =
      mapState n1 dl (buildPhases project docs decs s) := by
  simp only [buildPhases]
  have hmono1 : ∀ (st : GState), n1 ≤ st.nextId →
      n1 ≤ (docs.foldl (docPhase project) st).nextId :=
    fun st h => Nat.le_trans h (foldl_nextId_mono _ (nextId_docPhase_le project) _ _)
  rw [comm_foldl n1 dl _
    (fun s d h => comm_docPhase n1 dl project d s h)
    (nextId_docPhase_le project) docs s hn]
  have hn2 := hmono1 s hn
  rw [comm_foldl n1 dl _
    (fun s d h => comm_createDecisionNode n1 dl project d s h)
    (fun s d => Nat.le_succ _) decs _ hn2]
  exact comm_foldl n1 dl _
    (fun s d h => comm_refPhase n1 dl project d s h)
    (fun s d => Nat.le_of_eq (nextId_refPhase_eq project s d).symm)
    docs _ (Nat.le_trans hn2 (foldl_nextId_mono _ (fun s d => Nat.le_succ _) decs _))

/-- C2: running the full write sequence twice in succession with the
same project label and the same input Documents and Decisions leaves the
graph with the same node and edge counts as running it once: the second
run's reset removes exactly the first run's output, and the rebuild is
the first build up to an injective renaming of fresh identifiers. -/
theorem create_graph_idempotent_counts (project : LC) (docs : List Document)
    (decs : List Decision) (s : GState) (hwf : wfState s) :
    (create_graph project docs decs (create_graph project docs decs s)).nodes.length =
      (create_graph project docs decs s).nodes.length
    ∧ (create_graph project docs decs (create_graph project docs decs s)).edges.length =
      (create_graph project docs decs s).edges.length := by
  have hwfb : wfState (resetProject project s) := resetProject_wf project s hwf
  have hpf : projFree project (resetProject project s) := resetProject_projFree project s
  set base := resetProject project s with hbase
  set T := buildPhases project docs decs base with hT
  have hinv := inv_buildPhases project docs decs base hwfb
  have hreset : resetProject project T = ⟨base.nodes, base.edges, T.nextId⟩ :=
    reset_build project docs decs base hpf hwfb
  have hle : base.nextId ≤ T.nextId := hinv.next
  have hmap : mapState base.nextId (T.nextId - base.nextId) base =
      ⟨base.nodes, base.edges, T.nextId⟩ := by
    unfold mapState
    congr 1
    · have hid : ∀ n ∈ base.nodes, mapNode base.nextId (T.nextId - base.nextId) n = n := by
        intro n hn
        unfold mapNode
        rw [shiftId_lt _ _ n.nid (hwfb.1 n hn)]
      calc base.nodes.map (mapNode base.nextId (T.nextId - base.nextId))
          = base.nodes.map id := List.map_congr_left hid
        _ = base.nodes := List.map_id base.nodes
    · have hid : ∀ e ∈ base.edges, mapEdge base.nextId (T.nextId - base.nextId) e = e := by
        intro e he
        unfold mapEdge
        rw [shiftId_lt _ _ e.src (hwfb.2 e he).1, shiftId_lt _ _ e.dst (hwfb.2 e he).2]
      calc base.edges.map (mapEdge base.nextId (T.nextId - base.nextId))
          = base.edges.map id := List.map_congr_left hid
        _ = base.edges := List.map_id base.edges
    · show base.nextId + (T.nextId - base.nextId) = T.nextId
      omega
  have hrun2 : create_graph project docs decs T =
      mapState base.nextId (T.nextId - base.nextId) T := by
    show buildPhases project docs decs (resetProject project T) = _
    rw [hreset, ← hmap,
      comm_buildPhases base.nextId (T.nextId - base.nextId) project docs decs base
        (Nat.le_refl _)]
  have hTdef : create_graph project docs decs s = T := rfl
  rw [hTdef, hrun2]
  constructor
  · show (T.nodes.map (mapNode base.nextId (T.nextId - base.nextId))).length =
      T.nodes.length
    exact List.length_map _ _
  · show (T.edges.map (mapEdge base.nextId (T.nextId - base.nextId))).length =
      T.edges.length
    exact List.length_map _ _

def emptyG : GState := ⟨[], [], 0⟩

def projEx : LC := "Proj".toList

def docEx : Document :=
  ⟨"a.md".toList, "A".toList, otherWord, [], [], [], ["a.md".toList],
    ["X".toList], ["t1".toList]⟩

def decEx : Decision :=
  ⟨"001".toList, "T".toList, acceptedWord, "a.md".toList, [], [], []⟩

theorem emptyG_wf : wfState emptyG :=
  ⟨fun n hn => absurd hn (List.not_mem_nil n), fun e he => absurd he (List.not_mem_nil e)⟩

/-- Witness for `create_graph_idempotent_counts` at a concrete store. -/
theorem create_graph_idempotent_counts_witness :
    (create_graph projEx [docEx] [decEx]
        (create_graph projEx [docEx] [decEx] emptyG)).nodes.length =
      (create_graph projEx [docEx] [decEx] emptyG).nodes.length :=
  (create_graph_idempotent_counts projEx [docEx] [decEx] emptyG emptyG_wf).1

/-! Reference-linkage analysis: which nodes answer the document-by-path
pattern, and how many REFERENCES edges connect two given nodes. -/

def docPatB (project p : LC) : Node → Bool :=
  nodeMatches [project, docLabel] [(pathKey, PropVal.s p)]

def docFilter (project p : LC) (s : GState) : List Node :=
  s.nodes.filter (docPatB project p)

def refCount (s : GState) (x y : Nat) : Nat :=
  (s.edges.filter (fun e => e.src = x ∧ e.dst = y ∧ e.typ = referencesTyp)).length

theorem getProp_docProps (d : Document) :
    getProp (docProps d) pathKey = some (PropVal.s d.path) := by
  simp [getProp, docProps, List.find?]

theorem getProp_name_path (nm : LC) :
    getProp [(nameKey, PropVal.s nm)] pathKey = none := by
  simp [getProp, List.find?, show ¬nameKey = pathKey from by decide]

theorem docPatB_docNode_iff (project p : LC) (d : Document) (i : Nat) :
    docPatB project p ⟨i, [project, docLabel], docProps d⟩ = true ↔ p = d.path := by
  constructor
  · intro h
    have := nodeMatches_prop _ _ _ h (pathKey, PropVal.s p) (List.mem_cons_self _ _)
    rw [show (⟨i, [project, docLabel], docProps d⟩ : Node).props = docProps d from rfl,
      getProp_docProps] at this
    injection this with h2
    injection h2 with h3
    exact h3.symm
  · rintro rfl
    simp [docPatB, nodeMatches, docProps, getProp, List.find?]

theorem docPatB_nameNode_false (project kind p nm : LC) (i : Nat) :
    docPatB project p ⟨i, [project, kind], [(nameKey, PropVal.s nm)]⟩ = false := by
  by_contra h
  rw [Bool.not_eq_false] at h
  have := nodeMatches_prop _ _ _ h (pathKey, PropVal.s p) (List.mem_cons_self _ _)
  rw [show (⟨i, [project, kind], [(nameKey, PropVal.s nm)]⟩ : Node).props =
      [(nameKey, PropVal.s nm)] from rfl, getProp_name_path] at this
  cases this

theorem docPatB_decNode_false (project p : LC) (hproj : project ≠ docLabel)
    (d : Decision) (i : Nat) :
    docPatB project p ⟨i, [project, decisionLabel], decProps d⟩ = false := by
  by_contra h
  rw [Bool.not_eq_false] at h
  have := nodeMatches_label _ _ _ h docLabel
    (List.mem_cons_of_mem _ (List.mem_cons_self _ _))
  rcases List.mem_cons.mp this with h1 | h1
  · exact hproj h1.symm
  · have h2 := List.mem_singleton.mp h1
    exact absurd h2 (by decide)

theorem docPatB_label (project p : LC) (n : Node) (h : docPatB project p n = true) :
    project ∈ n.labels :=
  nodeMatches_label _ _ n h project (List.mem_cons_self _ _)

theorem docPatB_path (project p : LC) (n : Node) (h : docPatB project p n = true) :
    getProp n.props pathKey = some (PropVal.s p) :=
  nodeMatches_prop _ _ n h (pathKey, PropVal.s p) (List.mem_cons_self _ _)

/-- Invariant maintained while the document and decision loops run, with
`pp` the paths of the documents processed so far: the store stays
well-formed, project nodes are fresh with pairwise-distinct identifiers,
exactly the processed paths answer the document-by-path pattern (one
node each), and no REFERENCES edge has been added yet. -/
structure DocInv (project : LC) (base st : GState) (pp : List LC) : Prop where
  wf : wfState st
  fresh : ∀ n ∈ st.nodes, project ∈ n.labels → base.nextId ≤ n.nid
  nodupIds : ((st.nodes.filter (fun n => project ∈ n.labels)).map Node.nid).Nodup
  docAbsent : ∀ p, p ∉ pp → docFilter project p st = []
  docPresent : ∀ p ∈ pp, ∃ n, docFilter project p st = [n]
  edgesOld : ∀ e ∈ st.edges, e ∈ base.edges ∨ e.typ = describesTyp ∨ e.typ = mentionsTyp
  next : base.nextId ≤ st.nextId

theorem DocInv.init (project : LC) (base : GState) (hwf : wfState base)
    (hpf : projFree project base) : DocInv project base base [] := by
  refine ⟨hwf, ?_, ?_, ?_, ?_, ?_, Nat.le_refl _⟩
  · intro n hn hl
    exact absurd hl (hpf n hn)
  · rw [filter_all_false _ base.nodes (fun n hn => by simp [hpf n hn])]
    exact List.nodup_nil
  · intro p _
    unfold docFilter
    exact filter_all_false _ base.nodes (fun n hn => by
      by_contra hc
      rw [Bool.not_eq_false] at hc
      exact hpf n hn (docPatB_label project p n hc))
  · intro p hp
    cases hp
  · intro e he
    exact Or.inl he

theorem DocInv.congr_pp (project : LC) (base st : GState) (pp pp2 : List LC)
    (h : DocInv project base st pp) (hpp : ∀ p, p ∈ pp ↔ p ∈ pp2) :
    DocInv project base st pp2 := by
  refine ⟨h.wf, h.fresh, h.nodupIds, ?_, ?_, h.edgesOld, h.next⟩
  · intro p hp
    exact h.docAbsent p (fun hc => hp ((hpp p).mp hc))
  · intro p hp
    exact h.docPresent p ((hpp p).mpr hp)

theorem wf_extend (st st2 : GState) (ns : List Node) (es : List Edge)
    (hst : st2 = ⟨st.nodes ++ ns, st.edges ++ es, st.nextId + ns.length⟩)
    (hns : ∀ n ∈ ns, n.nid = st.nextId ∧ ns.length = 1)
    (hes : ∀ e ∈ es, (∃ a ∈ st.nodes ++ ns, a.nid = e.src)
        ∧ (∃ b ∈ st.nodes ++ ns, b.nid = e.dst))
    (hwf : wfState st) : wfState st2 := by
  have hnodeBound : ∀ n ∈ st.nodes ++ ns, n.nid < st.nextId + ns.length := by
    intro n hn
    rcases List.mem_append.mp hn with h1 | h1
    · exact Nat.lt_of_lt_of_le (hwf.1 n h1) (Nat.le_add_right _ _)
    · rcases hns n h1 with ⟨hnid, hone⟩
      omega
  subst hst
  constructor
  · intro n hn
    show n.nid < st.nextId + ns.length
    exact hnodeBound n hn
  · intro e he
    show e.src < st.nextId + ns.length ∧ e.dst < st.nextId + ns.length
    rcases List.mem_append.mp he with h1 | h1
    · have := hwf.2 e h1
      omega
    · rcases hes e h1 with ⟨⟨a, ha, hsa⟩, ⟨b, hb, hsb⟩⟩
      have h2 := hnodeBound a ha
      have h3 := hnodeBound b hb
      omega

theorem DocInv.grow (project : LC) (base st st2 : GState) (pp : List LC)
    (h : DocInv project base st pp)
    (ns : List Node) (es : List Edge)
    (hst : st2 = ⟨st.nodes ++ ns, st.edges ++ es, st.nextId + ns.length⟩)
    (hns : ns = [] ∨ ∃ L P, ns = [⟨st.nextId, L, P⟩] ∧ project ∈ L)
    (hnsPat : ∀ n ∈ ns, ∀ p, docPatB project p n = false)
    (hes : ∀ e ∈ es, (e.typ = describesTyp ∨ e.typ = mentionsTyp)
        ∧ (∃ a ∈ st.nodes ++ ns, a.nid = e.src)
        ∧ (∃ b ∈ st.nodes ++ ns, b.nid = e.dst)) :
    DocInv project base st2 pp := by
  have hnsElems : ∀ n ∈ ns, n.nid = st.nextId ∧ ns.length = 1 := by
    intro n hn
    rcases hns with h0 | ⟨L, P, h0, _⟩
    · rw [h0] at hn; cases hn
    · rw [h0] at hn
      have := List.mem_singleton.mp hn
      subst this
      exact ⟨rfl, by simp [h0]⟩
  have hwf2 : wfState st2 :=
    wf_extend st st2 ns es hst hnsElems (fun e he => (hes e he).2) h.wf
  have hnodes2 : st2.nodes = st.nodes ++ ns := by rw [hst]
  have hfilters : ∀ p, docFilter project p st2 = docFilter project p st := by
    intro p
    unfold docFilter
    rw [hnodes2, List.filter_append,
      filter_all_false _ ns (fun n hn => hnsPat n hn p), List.append_nil]
  refine ⟨hwf2, ?_, ?_, ?_, ?_, ?_, ?_⟩
  · intro n hn hl
    rw [hnodes2] at hn
    rcases List.mem_append.mp hn with h1 | h1
    · exact h.fresh n h1 hl
    · rw [(hnsElems n h1).1]
      exact h.next
  · rw [hnodes2, List.filter_append, List.map_append]
    rcases hns with h0 | ⟨L, P, h0, hL⟩
    · subst h0
      simpa using h.nodupIds
    · subst h0
      rw [List.nodup_append]
      refine ⟨h.nodupIds, ?_, ?_⟩
      · rw [List.filter_singleton]
        cases decide (project ∈ (⟨st.nextId, L, P⟩ : Node).labels) <;> simp
      · intro x hx
        rcases List.mem_map.mp hx with ⟨n, hn, hnid⟩
        have hn2 := List.mem_of_mem_filter hn
        have hlt := h.wf.1 n hn2
        intro hy
        rcases List.mem_map.mp hy with ⟨m, hm, hmid⟩
        have hm2 := List.mem_of_mem_filter hm
        have := List.mem_singleton.mp hm2
        subst this
        simp only at hmid
        omega
  · intro p hp
    rw [hfilters p]
    exact h.docAbsent p hp
  · intro p hp
    rw [hfilters p]
    exact h.docPresent p hp
  · intro e he
    rw [show st2.edges = st.edges ++ es from by rw [hst]] at he
    rcases List.mem_append.mp he with h1 | h1
    · exact h.edgesOld e h1
    · exact Or.inr ((hes e h1).1)
  · rw [hst]
    exact Nat.le_trans h.next (Nat.le_add_right _ _)

theorem docInv_mergeNodeLink (project : LC) (base st : GState) (pp : List LC)
    (kind rel nm dp : LC) (hrel : rel = describesTyp ∨ rel = mentionsTyp)
    (h : DocInv project base st pp) :
    DocInv project base (mergeNodeLink project kind rel nm dp st) pp := by
  rcases mergeNodeLink_shape project kind rel nm dp st with ⟨ns, es, hst, hns, hes⟩
  apply DocInv.grow project base st _ pp h ns es hst
  · rcases hns with h0 | h0
    · exact Or.inl h0
    · exact Or.inr ⟨[project, kind], [(nameKey, PropVal.s nm)], h0, List.mem_cons_self _ _⟩
  · intro n hn p
    rcases hns with h0 | h0
    · rw [h0] at hn; cases hn
    · rw [h0] at hn
      have := List.mem_singleton.mp hn
      subst this
      exact docPatB_nameNode_false project kind p nm st.nextId
  · intro e he
    rcases hes e he with ⟨ht, ⟨d, hd, _, hsd⟩, ⟨c, hc, _, hcd⟩⟩
    exact ⟨by rw [ht]; exact hrel, ⟨d, hd, hsd⟩, ⟨c, hc, hcd⟩⟩

theorem docInv_createDecisionNode (project : LC) (base st : GState) (pp : List LC)
    (d : Decision) (hproj : project ≠ docLabel)
    (h : DocInv project base st pp) :
    DocInv project base (createDecisionNode project d st) pp := by
  apply DocInv.grow project base st _ pp h
    [⟨st.nextId, [project, decisionLabel], decProps d⟩] []
  · show createDecisionNode project d st = _
    unfold createDecisionNode
    rw [createNode_shape]
    simp
  · exact Or.inr ⟨_, _, rfl, List.mem_cons_self _ _⟩
  · intro n hn p
    have := List.mem_singleton.mp hn
    subst this
    exact docPatB_decNode_false project p hproj d st.nextId
  · intro e he
    cases he

theorem docInv_createDocNode (project : LC) (base st : GState) (pp : List LC)
    (d : Document) (hd : d.path ∉ pp) (h : DocInv project base st pp) :
    DocInv project base (createDocNode project d st) (d.path :: pp) := by
  have hshape : createDocNode project d st =
      ⟨st.nodes ++ [⟨st.nextId, [project, docLabel], docProps d⟩], st.edges,
        st.nextId + 1⟩ := by
    unfold createDocNode
    rw [createNode_shape]
  have hpatTrue : docPatB project d.path
      (⟨st.nextId, [project, docLabel], docProps d⟩ : Node) = true :=
    (docPatB_docNode_iff project d.path d st.nextId).mpr rfl
  have hpatOther : ∀ p, p ≠ d.path →
      docPatB project p (⟨st.nextId, [project, docLabel], docProps d⟩ : Node) = false := by
    intro p hp
    by_contra hc
    rw [Bool.not_eq_false] at hc
    exact hp ((docPatB_docNode_iff project p d st.nextId).mp hc)
  have hfilters : ∀ p, docFilter project p (createDocNode project d st) =
      docFilter project p st ++
        (if p = d.path then [⟨st.nextId, [project, docLabel], docProps d⟩] else []) := by
    intro p
    unfold docFilter
    rw [show (createDocNode project d st).nodes =
        st.nodes ++ [⟨st.nextId, [project, docLabel], docProps d⟩] from by rw [hshape],
      List.filter_append]
    congr 1
    by_cases hp : p = d.path
    · subst hp
      rw [if_pos rfl, List.filter_singleton]
      simp [hpatTrue]
    · rw [if_neg hp, List.filter_singleton]
      simp [hpatOther p hp]
  refine ⟨?_, ?_, ?_, ?_, ?_, ?_, ?_⟩
  · refine wf_extend st _ [⟨st.nextId, [project, docLabel], docProps d⟩] []
      (by rw [hshape]; simp) ?_ (fun e he => by cases he) h.wf
    intro n hn
    have := List.mem_singleton.mp hn
    subst this
    exact ⟨rfl, rfl⟩
  · intro n hn hl
    rw [show (createDocNode project d st).nodes =
        st.nodes ++ [⟨st.nextId, [project, docLabel], docProps d⟩] from by rw [hshape]] at hn
    rcases List.mem_append.mp hn with h1 | h1
    · exact h.fresh n h1 hl
    · have := List.mem_singleton.mp h1
      subst this
      exact h.next
  · rw [show (createDocNode project d st).nodes =
        st.nodes ++ [⟨st.nextId, [project, docLabel], docProps d⟩] from by rw [hshape],
      List.filter_append, List.map_append, List.filter_singleton]
    have : decide (project ∈ (⟨st.nextId, [project, docLabel], docProps d⟩ : Node).labels)
        = true := by simp
    rw [this]
    show (_ ++ List.map Node.nid [⟨st.nextId, [project, docLabel], docProps d⟩]).Nodup
    rw [List.nodup_append]
    refine ⟨h.nodupIds, by simp, ?_⟩
    intro x hx
    rcases List.mem_map.mp hx with ⟨n, hn, hnid⟩
    have hlt := h.wf.1 n (List.mem_of_mem_filter hn)
    intro hy
    rcases List.mem_map.mp hy with ⟨m, hm, hmid⟩
    have := List.mem_singleton.mp hm
    subst this
    simp only at hmid
    omega
  · intro p hp
    have hp1 : p ≠ d.path := fun hc => hp (hc ▸ List.mem_cons_self _ _)
    have hp2 : p ∉ pp := fun hc => hp (List.mem_cons_of_mem _ hc)
    rw [hfilters p, if_neg hp1, List.append_nil]
    exact h.docAbsent p hp2
  · intro p hp
    rcases List.mem_cons.mp hp with hp1 | hp1
    · rw [hfilters p, if_pos hp1, h.docAbsent p (hp1 ▸ hd), List.nil_append]
      exact ⟨_, rfl⟩
    · have hp2 : p ≠ d.path := fun hc => hd (hc ▸ hp1)
      rw [hfilters p, if_neg hp2, List.append_nil]
      exact h.docPresent p hp1
  · intro e he
    rw [show (createDocNode project d st).edges = st.edges from by rw [hshape]] at he
    exact h.edgesOld e he
  · rw [show (createDocNode project d st).nextId = st.nextId + 1 from by rw [hshape]]
    exact Nat.le_trans h.next (Nat.le_succ _)

theorem docInv_docPhase (project : LC) (base : GState) (d : Document) (pp : List LC)
    (hd : d.path ∉ pp) :
    ∀ st : GState, DocInv project base st pp →
      DocInv project base (docPhase project st d) (d.path :: pp) := by
  intro st h
  unfold docPhase
  exact foldl_preserve (fun s => DocInv project base s (d.path :: pp)) _
    (fun s c hs => docInv_mergeNodeLink project base s (d.path :: pp)
      conceptLabel mentionsTyp c d.path (Or.inr rfl) hs) _ _
    (foldl_preserve (fun s => DocInv project base s (d.path :: pp)) _
      (fun s c hs => docInv_mergeNodeLink project base s (d.path :: pp)
        compLabel describesTyp c d.path (Or.inl rfl) hs) _ _
      (docInv_createDocNode project base st pp d hd h))

theorem docInv_docsFold (project : LC) (base : GState) :
    ∀ (docs : List Document) (st : GState) (pp : List LC),
      DocInv project base st pp →
      (∀ d ∈ docs, d.path ∉ pp) → (docs.map Document.path).Nodup →
      DocInv project base (docs.foldl (docPhase project) st)
        (docs.map Document.path ++ pp) := by
  intro docs
  induction docs with
  | nil =>
    intro st pp h _ _
    simpa using h
  | cons d rest ih =>
    intro st pp h hnotin hnd
    rw [List.foldl_cons]
    have hnd1 : d.path ∉ rest.map Document.path := (List.nodup_cons.mp (by simpa using hnd)).1
    have hnd2 : (rest.map Document.path).Nodup := (List.nodup_cons.mp (by simpa using hnd)).2
    have h1 := docInv_docPhase project base d pp (hnotin d (List.mem_cons_self d rest)) st h
    have hnotin2 : ∀ d2 ∈ rest, d2.path ∉ d.path :: pp := by
      intro d2 hd2 hc
      rcases List.mem_cons.mp hc with hc1 | hc1
      · exact hnd1 (hc1 ▸ List.mem_map_of_mem Document.path hd2)
      · exact hnotin d2 (List.mem_cons_of_mem _ hd2) hc1
    have h2 := ih (docPhase project st d) (d.path :: pp) h1 hnotin2 hnd2
    refine DocInv.congr_pp project base _ _ _ h2 ?_
    intro p
    simp only [List.map_cons, List.mem_append, List.mem_cons]
    tauto

theorem docInv_decsFold (project : LC) (base : GState) (pp : List LC)
    (hproj : project ≠ docLabel) (decs : List Decision) (st : GState)
    (h : DocInv project base st pp) :
    DocInv project base
      (decs.foldl (fun st2 d => createDecisionNode project d st2) st) pp :=
  foldl_preserve (fun s => DocInv project base s pp) _
    (fun s d hs => docInv_createDecisionNode project base s pp d hproj hs) decs st h

theorem foldl_skip {α β : Type} : ∀ (l : List β) (a : α), l.foldl (fun x _ => x) a = a := by
  intro l
  induction l with
  | nil => intro a; rfl
  | cons b t ih => intro a; exact ih a

theorem mergeRef_nop_left (project p q : LC) (st : GState)
    (hp : docFilter project p st = []) : mergeRef project p q st = st := by
  simp only [mergeRef]
  unfold docFilter docPatB at hp
  rw [hp]
  rfl

theorem mergeRef_nop_right (project p q : LC) (st : GState)
    (hq : docFilter project q st = []) : mergeRef project p q st = st := by
  simp only [mergeRef]
  unfold docFilter docPatB at hq
  rw [hq]
  exact foldl_skip _ st

theorem mergeRef_single (project p q : LC) (st : GState) (ca cb : Node)
    (hp : docFilter project p st = [ca]) (hq : docFilter project q st = [cb]) :
    mergeRef project p q st = addEdgeIfAbsent ca.nid cb.nid referencesTyp st := by
  simp only [mergeRef]
  unfold docFilter docPatB at hp hq
  rw [hp, hq]
  rfl

theorem refCount_pos_iff (s : GState) (x y : Nat) :
    refCount s x y ≠ 0 ↔
      s.edges.any (fun e => e.src = x ∧ e.dst = y ∧ e.typ = referencesTyp) = true := by
  unfold refCount
  rw [List.any_eq_true]
  constructor
  · intro h
    cases hf : s.edges.filter (fun e => e.src = x ∧ e.dst = y ∧ e.typ = referencesTyp) with
    | nil => rw [hf] at h; exact absurd rfl h
    | cons e t =>
      have he : e ∈ s.edges.filter
          (fun e => e.src = x ∧ e.dst = y ∧ e.typ = referencesTyp) := by
        rw [hf]; exact List.mem_cons_self e t
      exact ⟨e, (List.mem_filter.mp he).1, (List.mem_filter.mp he).2⟩
  · rintro ⟨e, he, hp⟩ h0
    have : e ∈ s.edges.filter (fun e => e.src = x ∧ e.dst = y ∧ e.typ = referencesTyp) :=
      List.mem_filter.mpr ⟨he, hp⟩
    rw [List.length_eq_zero.mp h0] at this
    cases this

theorem refCount_addEdge_hit (s : GState) (x y : Nat) :
    refCount (addEdgeIfAbsent x y referencesTyp s) x y =
      if refCount s x y = 0 then 1 else refCount s x y := by
  unfold addEdgeIfAbsent
  by_cases h : s.edges.any
      (fun e => e.src = x ∧ e.dst = y ∧ e.typ = referencesTyp) = true
  · rw [if_pos h, if_neg ((refCount_pos_iff s x y).mpr h)]
  · have h0 : refCount s x y = 0 := by
      by_contra hc
      exact h ((refCount_pos_iff s x y).mp hc)
    rw [if_neg h, if_pos h0]
    unfold refCount at h0 ⊢
    show (List.filter _ (s.edges ++ [⟨x, y, referencesTyp⟩])).length = 1
    rw [List.filter_append, List.length_eq_zero.mp h0, List.nil_append,
      List.filter_singleton]
    simp

theorem refCount_addEdge_miss (s : GState) (x y a b : Nat) (t : LC)
    (h : ¬(x = a ∧ y = b ∧ t = referencesTyp)) :
    refCount (addEdgeIfAbsent x y t s) a b = refCount s a b := by
  unfold addEdgeIfAbsent
  by_cases hany : s.edges.any (fun e => e.src = x ∧ e.dst = y ∧ e.typ = t) = true
  · rw [if_pos hany]
  · rw [if_neg hany]
    unfold refCount
    show (List.filter _ (s.edges ++ [⟨x, y, t⟩])).length = _
    rw [List.filter_append, List.filter_singleton,
      show (decide ((⟨x, y, t⟩ : Edge).src = a ∧ (⟨x, y, t⟩ : Edge).dst = b
        ∧ (⟨x, y, t⟩ : Edge).typ = referencesTyp)) = false from decide_eq_false h]
    simp

theorem docFilter_eq_of_nodes (project p : LC) (s1 s2 : GState)
    (h : s1.nodes = s2.nodes) : docFilter project p s1 = docFilter project p s2 := by
  unfold docFilter
  rw [h]

theorem mergeRef_nodes_eq (project p q : LC) (st : GState) :
    (mergeRef project p q st).nodes = st.nodes := by
  rcases mergeRef_shape project p q st with ⟨es, hst, _⟩
  rw [hst]

theorem refCount_mergeRef_srcne (project p q : LC) (st : GState) (a b : Nat)
    (h : ∀ c ∈ docFilter project p st, c.nid ≠ a) :
    refCount (mergeRef project p q st) a b = refCount st a b := by
  rcases mergeRef_shape project p q st with ⟨es, hst, hes⟩
  unfold refCount
  rw [show (mergeRef project p q st).edges = st.edges ++ es from by rw [hst],
    List.filter_append,
    filter_all_false _ es (fun e he => by
      rcases hes e he with ⟨_, ⟨d, hd, hmd, hsd⟩, _⟩
      have hdf : d ∈ docFilter project p st := List.mem_filter.mpr ⟨hd, hmd⟩
      apply decide_eq_false
      rintro ⟨h1, _, _⟩
      exact h d hdf (hsd.trans h1)),
    List.append_nil]

theorem refCount_mergeRef_dstne (project p q : LC) (st : GState) (a b : Nat)
    (h : ∀ c ∈ docFilter project q st, c.nid ≠ b) :
    refCount (mergeRef project p q st) a b = refCount st a b := by
  rcases mergeRef_shape project p q st with ⟨es, hst, hes⟩
  unfold refCount
  rw [show (mergeRef project p q st).edges = st.edges ++ es from by rw [hst],
    List.filter_append,
    filter_all_false _ es (fun e he => by
      rcases hes e he with ⟨_, _, ⟨c, hc, hmc, hcd⟩⟩
      have hdf : c ∈ docFilter project q st := List.mem_filter.mpr ⟨hc, hmc⟩
      apply decide_eq_false
      rintro ⟨_, h2, _⟩
      exact h c hdf (hcd.trans h2)),
    List.append_nil]

theorem refCount_mergeRef_hit (project p q : LC) (st : GState) (ca cb : Node)
    (hp : docFilter project p st = [ca]) (hq : docFilter project q st = [cb]) :
    refCount (mergeRef project p q st) ca.nid cb.nid =
      if refCount st ca.nid cb.nid = 0 then 1 else refCount st ca.nid cb.nid := by
  rw [mergeRef_single project p q st ca cb hp hq, refCount_addEdge_hit]

theorem docFilter_nid_ne (project : LC) (st : GState) (r1 r2 : LC) (c1 c2 : Node)
    (hne : r1 ≠ r2) (h1 : c1 ∈ docFilter project r1 st) (h2 : c2 ∈ docFilter project r2 st)
    (hnd : ((st.nodes.filter (fun n => project ∈ n.labels)).map Node.nid).Nodup) :
    c1.nid ≠ c2.nid := by
  unfold docFilter at h1 h2
  have hm1 := (List.mem_filter.mp h1).1
  have hp1 : docPatB project r1 c1 = true := (List.mem_filter.mp h1).2
  have hm2 := (List.mem_filter.mp h2).1
  have hp2 : docPatB project r2 c2 = true := (List.mem_filter.mp h2).2
  have hneq : c1 ≠ c2 := by
    intro hc
    have ha := docPatB_path project r1 c1 hp1
    have hb := docPatB_path project r2 c2 hp2
    rw [hc] at ha
    rw [ha] at hb
    injection hb with hb2
    injection hb2 with hb3
    exact hne hb3
  have hf1 : c1 ∈ st.nodes.filter (fun n => project ∈ n.labels) :=
    List.mem_filter.mpr ⟨hm1, by simp [docPatB_label project r1 c1 hp1]⟩
  have hf2 : c2 ∈ st.nodes.filter (fun n => project ∈ n.labels) :=
    List.mem_filter.mpr ⟨hm2, by simp [docPatB_label project r2 c2 hp2]⟩
  intro hc
  exact hneq (List.inj_on_of_nodup_map hnd hf1 hf2 hc)

theorem refPhase_nodes_eq (project : LC) (st : GState) (d : Document) :
    (refPhase project st d).nodes = st.nodes := by
  unfold refPhase
  suffices h : ∀ (rs : List LC) (s2 : GState),
      ((rs.foldl (fun st2 r => mergeRef project d.path r st2) s2)).nodes = s2.nodes from
    h d.references st
  intro rs
  induction rs with
  | nil => intro s2; rfl
  | cons r t ih =>
    intro s2
    rw [List.foldl_cons, ih, mergeRef_nodes_eq]

theorem docsRefFold_nodes_eq (project : LC) :
    ∀ (ds : List Document) (st : GState),
      (ds.foldl (refPhase project) st).nodes = st.nodes := by
  intro ds
  induction ds with
  | nil => intro st; rfl
  | cons d t ih =>
    intro st
    rw [List.foldl_cons, ih, refPhase_nodes_eq]

theorem cntA_inner (project Apath Bpath : LC) (aN bN : Node) :
    ∀ (rs : List LC) (st : GState),
      docFilter project Apath st = [aN] →
      docFilter project Bpath st = [bN] →
      (∀ r, r ≠ Bpath → ∀ c ∈ docFilter project r st, c.nid ≠ bN.nid) →
      refCount (rs.foldl (fun s2 r => mergeRef project Apath r s2) st) aN.nid bN.nid =
        if Bpath ∈ rs then
          (if refCount st aN.nid bN.nid = 0 then 1 else refCount st aN.nid bN.nid)
        else refCount st aN.nid bN.nid := by
  intro rs
  induction rs with
  | nil =>
    intro st _ _ _
    simp
  | cons r rs2 ih =>
    intro st hA hB hDist
    rw [List.foldl_cons]
    have hnodes := mergeRef_nodes_eq project Apath r st
    have hA1 : docFilter project Apath (mergeRef project Apath r st) = [aN] := by
      rw [docFilter_eq_of_nodes project Apath _ st hnodes]
      exact hA
    have hB1 : docFilter project Bpath (mergeRef project Apath r st) = [bN] := by
      rw [docFilter_eq_of_nodes project Bpath _ st hnodes]
      exact hB
    have hDist1 : ∀ r2, r2 ≠ Bpath →
        ∀ c ∈ docFilter project r2 (mergeRef project Apath r st), c.nid ≠ bN.nid := by
      intro r2 hr2 c hc
      rw [docFilter_eq_of_nodes project r2 _ st hnodes] at hc
      exact hDist r2 hr2 c hc
    by_cases hr : r = Bpath
    · subst hr
      have hcnt1 := refCount_mergeRef_hit project Apath r st aN bN hA hB
      have hX : (if refCount st aN.nid bN.nid = 0 then 1
          else refCount st aN.nid bN.nid) ≠ 0 := by
        by_cases h0 : refCount st aN.nid bN.nid = 0
        · rw [if_pos h0]; omega
        · rw [if_neg h0]; exact h0
      rw [ih _ hA1 hB1 hDist1, hcnt1, if_pos (List.mem_cons_self r rs2)]
      by_cases hmem : r ∈ rs2
      · rw [if_pos hmem, if_neg hX]
      · rw [if_neg hmem]
    · have hcnt1 : refCount (mergeRef project Apath r st) aN.nid bN.nid =
          refCount st aN.nid bN.nid :=
        refCount_mergeRef_dstne project Apath r st aN.nid bN.nid (hDist r hr)
      rw [ih _ hA1 hB1 hDist1, hcnt1]
      by_cases hmem : Bpath ∈ rs2
      · rw [if_pos hmem, if_pos (List.mem_cons_of_mem r hmem)]
      · rw [if_neg hmem, if_neg (fun hc => by
          rcases List.mem_cons.mp hc with h1 | h1
          · exact hr h1.symm
          · exact hmem h1)]

theorem cnt_refsFold_srcne (project srcPath : LC) (a b : Nat) :
    ∀ (rs : List LC) (st : GState),
      (∀ c ∈ docFilter project srcPath st, c.nid ≠ a) →
      refCount (rs.foldl (fun s2 r => mergeRef project srcPath r s2) st) a b =
        refCount st a b := by
  intro rs
  induction rs with
  | nil => intro st _; rfl
  | cons r t ih =>
    intro st h
    rw [List.foldl_cons]
    have hnodes := mergeRef_nodes_eq project srcPath r st
    have h1 : ∀ c ∈ docFilter project srcPath (mergeRef project srcPath r st),
        c.nid ≠ a := by
      intro c hc
      rw [docFilter_eq_of_nodes project srcPath _ st hnodes] at hc
      exact h c hc
    rw [ih _ h1, refCount_mergeRef_srcne project srcPath r st a b h]

theorem cntA_outer (project : LC) (A : Document) (aN bN : Node) (Bpath : LC) :
    ∀ (ds : List Document) (st : GState),
      docFilter project A.path st = [aN] →
      docFilter project Bpath st = [bN] →
      (∀ r, r ≠ Bpath → ∀ c ∈ docFilter project r st, c.nid ≠ bN.nid) →
      (∀ p, p ≠ A.path → ∀ c ∈ docFilter project p st, c.nid ≠ aN.nid) →
      (∀ D ∈ ds, D = A ∨ D.path ≠ A.path) →
      (ds.map Document.path).Nodup →
      refCount (ds.foldl (refPhase project) st) aN.nid bN.nid =
        if A ∈ ds ∧ Bpath ∈ A.references then
          (if refCount st aN.nid bN.nid = 0 then 1 else refCount st aN.nid bN.nid)
        else refCount st aN.nid bN.nid := by
  intro ds
  induction ds with
  | nil =>
    intro st _ _ _ _ _ _
    simp
  | cons D rest ih =>
    intro st hA hB hDistB hDistA hcond hnd
    rw [List.foldl_cons]
    have hnodes : (refPhase project st D).nodes = st.nodes := refPhase_nodes_eq project st D
    have hA1 : docFilter project A.path (refPhase project st D) = [aN] := by
      rw [docFilter_eq_of_nodes project A.path _ st hnodes]
      exact hA
    have hB1 : docFilter project Bpath (refPhase project st D) = [bN] := by
      rw [docFilter_eq_of_nodes project Bpath _ st hnodes]
      exact hB
    have hDistB1 : ∀ r, r ≠ Bpath →
        ∀ c ∈ docFilter project r (refPhase project st D), c.nid ≠ bN.nid := by
      intro r hr c hc
      rw [docFilter_eq_of_nodes project r _ st hnodes] at hc
      exact hDistB r hr c hc
    have hDistA1 : ∀ p, p ≠ A.path →
        ∀ c ∈ docFilter project p (refPhase project st D), c.nid ≠ aN.nid := by
      intro p hp c hc
      rw [docFilter_eq_of_nodes project p _ st hnodes] at hc
      exact hDistA p hp c hc
    have hndTail : (rest.map Document.path).Nodup :=
      (List.nodup_cons.mp (by simpa using hnd)).2
    have hcondTail : ∀ D2 ∈ rest, D2 = A ∨ D2.path ≠ A.path :=
      fun D2 h2 => hcond D2 (List.mem_cons_of_mem _ h2)
    rcases hcond D (List.mem_cons_self D rest) with hDA | hDA
    · have hDA2 := hDA.symm
      subst hDA2
      have hApath_notin : A ∉ rest := by
        intro hc
        exact (List.nodup_cons.mp (by simpa using hnd)).1
          (List.mem_map_of_mem Document.path hc)
      have hinner : refCount (refPhase project st A) aN.nid bN.nid =
          if Bpath ∈ A.references then
            (if refCount st aN.nid bN.nid = 0 then 1 else refCount st aN.nid bN.nid)
          else refCount st aN.nid bN.nid := by
        unfold refPhase
        exact cntA_inner project A.path Bpath aN bN A.references st hA hB hDistB
      rw [ih _ hA1 hB1 hDistB1 hDistA1 hcondTail hndTail,
        if_neg (fun hc => hApath_notin hc.1), hinner]
      by_cases hbr : Bpath ∈ A.references
      · have hmem1 : A ∈ A :: rest ∧ Bpath ∈ A.references :=
          ⟨List.mem_cons_self A rest, hbr⟩
        rw [if_pos hbr, if_pos hmem1]
      · have hmem1 : ¬(A ∈ A :: rest ∧ Bpath ∈ A.references) :=
          fun hc => hbr hc.2
        rw [if_neg hbr, if_neg hmem1]
    · have hDneA : D ≠ A := fun hc => hDA (by rw [hc])
      have hcnt1 : refCount (refPhase project st D) aN.nid bN.nid =
          refCount st aN.nid bN.nid := by
        unfold refPhase
        exact cnt_refsFold_srcne project D.path aN.nid bN.nid D.references st
          (hDistA D.path hDA)
      rw [ih _ hA1 hB1 hDistB1 hDistA1 hcondTail hndTail, hcnt1]
      by_cases hmem : A ∈ rest ∧ Bpath ∈ A.references
      · have hmem1 : A ∈ D :: rest ∧ Bpath ∈ A.references :=
          ⟨List.mem_cons_of_mem D hmem.1, hmem.2⟩
        rw [if_pos hmem, if_pos hmem1]
      · have hmem1 : ¬(A ∈ D :: rest ∧ Bpath ∈ A.references) := by
          intro hc
          refine hmem ⟨?_, hc.2⟩
          rcases List.mem_cons.mp hc.1 with h1 | h1
          · exact absurd h1.symm hDneA
          · exact h1
        rw [if_neg hmem, if_neg hmem1]

theorem refCount_eq_zero (s : GState) (x y : Nat)
    (h : ∀ e ∈ s.edges, ¬(e.src = x ∧ e.dst = y ∧ e.typ = referencesTyp)) :
    refCount s x y = 0 := by
  by_contra hc
  rcases List.any_eq_true.mp ((refCount_pos_iff s x y).mp hc) with ⟨e, he, hp⟩
  exact h e he (by simpa using hp)

/-- C9: in the graph written by `create_graph`, each corpus document has a
unique project node; a reference string on document A equal to the path of a
corpus document B yields exactly one REFERENCES edge from A's node to B's
node and a reference string matching no corpus path yields none; a path
matching no document has no node, and merging a reference towards it is a
silent no-op. -/
theorem create_graph_references (project : LC) (docs : List Document)
    (decs : List Decision) (s : GState) (A : Document) (Bpath : LC)
    (hwf : wfState s) (hproj : project ≠ docLabel)
    (hnd : (docs.map Document.path).Nodup) (hA : A ∈ docs)
    (hBin : Bpath ∈ docs.map Document.path) :
    (∃ aN bN,
      docFilter project A.path (create_graph project docs decs s) = [aN] ∧
      docFilter project Bpath (create_graph project docs decs s) = [bN] ∧
      refCount (create_graph project docs decs s) aN.nid bN.nid =
        (if Bpath ∈ A.references then 1 else 0)) ∧
    (∀ r, r ∉ docs.map Document.path →
      docFilter project r (create_graph project docs decs s) = [] ∧
      mergeRef project A.path r (create_graph project docs decs s) =
        create_graph project docs decs s) := by
  have hbwf : wfState (resetProject project s) := resetProject_wf project s hwf
  have hbpf : projFree project (resetProject project s) :=
    resetProject_projFree project s
  have h0 : DocInv project (resetProject project s) (resetProject project s) [] :=
    DocInv.init project _ hbwf hbpf
  have h1 := docInv_docsFold project (resetProject project s) docs
    (resetProject project s) [] h0 (fun d _ hc => (List.not_mem_nil d.path) hc) hnd
  have h1b := DocInv.congr_pp project (resetProject project s) _
    (docs.map Document.path ++ []) (docs.map Document.path) h1 (by simp)
  have h2 := docInv_decsFold project (resetProject project s)
    (docs.map Document.path) hproj decs _ h1b
  set s3 : GState := decs.foldl (fun st2 d => createDecisionNode project d st2)
    (docs.foldl (docPhase project) (resetProject project s)) with hs3
  have hg : create_graph project docs decs s = docs.foldl (refPhase project) s3 := by
    rw [hs3]
    simp only [create_graph, buildPhases]
  have hnodes : (docs.foldl (refPhase project) s3).nodes = s3.nodes :=
    docsRefFold_nodes_eq project docs s3
  obtain ⟨aN, haN⟩ := h2.docPresent A.path (List.mem_map_of_mem Document.path hA)
  obtain ⟨bN, hbN⟩ := h2.docPresent Bpath hBin
  have hDistB : ∀ r, r ≠ Bpath → ∀ c ∈ docFilter project r s3, c.nid ≠ bN.nid := by
    intro r hr c hc
    exact docFilter_nid_ne project s3 r Bpath c bN hr hc
      (by rw [hbN]; exact List.mem_singleton_self bN) h2.nodupIds
  have hDistA : ∀ p, p ≠ A.path → ∀ c ∈ docFilter project p s3, c.nid ≠ aN.nid := by
    intro p hp c hc
    exact docFilter_nid_ne project s3 p A.path c aN hp hc
      (by rw [haN]; exact List.mem_singleton_self aN) h2.nodupIds
  have hcond : ∀ D ∈ docs, D = A ∨ D.path ≠ A.path := by
    intro D hD
    by_cases hp : D.path = A.path
    · exact Or.inl (List.inj_on_of_nodup_map hnd hD hA hp)
    · exact Or.inr hp
  have haN_in : aN ∈ docFilter project A.path s3 := by
    rw [haN]; exact List.mem_singleton_self aN
  have haN_in2 := haN_in
  unfold docFilter at haN_in2
  have haN_nodes : aN ∈ s3.nodes := (List.mem_filter.mp haN_in2).1
  have haN_lab : project ∈ aN.labels :=
    docPatB_label project A.path aN (List.mem_filter.mp haN_in2).2
  have haN_ge : (resetProject project s).nextId ≤ aN.nid :=
    h2.fresh aN haN_nodes haN_lab
  have hcnt0 : refCount s3 aN.nid bN.nid = 0 := by
    refine refCount_eq_zero s3 aN.nid bN.nid ?_
    intro e he hc
    rcases h2.edgesOld e he with hb | ht | ht
    · have hlt : e.src < (resetProject project s).nextId := (hbwf.2 e hb).1
      rw [hc.1] at hlt
      omega
    · exact absurd (hc.2.2.symm.trans ht) (by decide)
    · exact absurd (hc.2.2.symm.trans ht) (by decide)
  have hmain := cntA_outer project A aN bN Bpath docs s3 haN hbN hDistB hDistA hcond hnd
  rw [hcnt0] at hmain
  have hmain2 : refCount (docs.foldl (refPhase project) s3) aN.nid bN.nid =
      if Bpath ∈ A.references then 1 else 0 := by
    rw [hmain]
    by_cases hbr : Bpath ∈ A.references
    · have h3 : A ∈ docs ∧ Bpath ∈ A.references := ⟨hA, hbr⟩
      rw [if_pos hbr, if_pos h3]
      simp
    · have h3 : ¬(A ∈ docs ∧ Bpath ∈ A.references) := fun hcc => hbr hcc.2
      rw [if_neg hbr, if_neg h3]
  have hfA : docFilter project A.path (create_graph project docs decs s) = [aN] := by
    rw [hg, docFilter_eq_of_nodes project A.path _ s3 hnodes]
    exact haN
  have hfB : docFilter project Bpath (create_graph project docs decs s) = [bN] := by
    rw [hg, docFilter_eq_of_nodes project Bpath _ s3 hnodes]
    exact hbN
  constructor
  · exact ⟨aN, bN, hfA, hfB, by rw [hg]; exact hmain2⟩
  · intro r hr
    have hd0 : docFilter project r s3 = [] := h2.docAbsent r hr
    have hdg : docFilter project r (create_graph project docs decs s) = [] := by
      rw [hg, docFilter_eq_of_nodes project r _ s3 hnodes]
      exact hd0
    exact ⟨hdg, mergeRef_nop_right project A.path r _ hdg⟩

def projW : LC := "Wiki".toList

def bPathW : LC := "b.md".toList

def docWA : Document :=
  ⟨"a.md".toList, "A".toList, otherWord, [], [], [], ["b.md".toList, "zz.md".toList],
    [], []⟩

def docWB : Document :=
  ⟨"b.md".toList, "B".toList, otherWord, [], [], [], [], [], []⟩

/-- Witness for `create_graph_references` at a concrete two-document corpus
with one matched and one dangling reference. -/
theorem create_graph_references_witness :
    (∃ aN bN,
      docFilter projW docWA.path (create_graph projW [docWA, docWB] [] emptyG) = [aN] ∧
      docFilter projW bPathW (create_graph projW [docWA, docWB] [] emptyG) = [bN] ∧
      refCount (create_graph projW [docWA, docWB] [] emptyG) aN.nid bN.nid =
        (if bPathW ∈ docWA.references then 1 else 0)) ∧
    (∀ r, r ∉ ([docWA, docWB].map Document.path) →
      docFilter projW r (create_graph projW [docWA, docWB] [] emptyG) = [] ∧
      mergeRef projW docWA.path r (create_graph projW [docWA, docWB] [] emptyG) =
        create_graph projW [docWA, docWB] [] emptyG) :=
  create_graph_references projW [docWA, docWB] [] emptyG docWA bPathW emptyG_wf
    (by decide) (by decide) (by decide) (by decide)

end DocGraph
